import Mathlib

/-
Formal model of the ring-based atomic shared pointer of
src/AtomicSharedPtr.cpp (class atomic_shared_ptr_with_ring, lines 33-101).

Modelling conventions:
* A std::shared_ptr<T> handle is modelled as an Option V value; a
  default-constructed (null) handle is none, a handle to value v is some v.
* The std::atomic<int> counters are modelled as integers together with
  explicit 32-bit two's-complement wrap-around (wrap32) applied by every
  fetch_add / fetch_sub, matching the modular semantics of atomic integer
  read-modify-write operations.
* On line 48 the int returned by fetch_add(1) is converted to size_t by the
  % ring_size expression (ring_size is a size_t template parameter); the
  conversion reduces the value modulo 2^64, which idxOfCursor reproduces.
* Concurrency is modelled by a small-step interleaving system: every thread
  is a program counter over the atomic accesses of operator= (write path,
  lines 43-77) and operator shared_ptr (read path, lines 79-94); one
  scheduler step performs exactly one atomic access.  The Bool component of
  each scheduler step resolves the allowed spurious failure of the
  compare_exchange_weak on line 62 (true = the weak CAS fails spuriously).
* The sequential functions assignIter/assignLoop and loadIter/loadLoop are
  the big-step meaning of the same two member functions when executed with
  no interleaved effects; there the weak CAS is taken to succeed whenever
  the compared value matches.
-/

namespace ASPR

/-- Line 33: constexpr int under_construction_label = INT_MAX / 2. -/
def LABEL : ℤ := 1073741823

/-- 32-bit two's-complement wrap-around, the effect of atomic<int>
arithmetic leaving the representable range. -/
def wrap32 (z : ℤ) : ℤ := (z + 2147483648) % 4294967296 - 2147483648

/-- Line 48: current_write_pointer.fetch_add(1) % ring_size.  The int
pre-value is converted to size_t (reduction modulo 2^64) and reduced
modulo the ring size. -/
def idxOfCursor (R : ℕ) (c : ℤ) : ℕ := ((c % 18446744073709551616).toNat) % R

/-- The data members of one atomic_shared_ptr_with_ring object
(lines 96-100): pointers, pointer_usage, current_read_pointer (published
index) and current_write_pointer (write cursor). -/
@[ext] structure RingState (V : Type) where
  pointers : ℕ → Option V
  usage : ℕ → ℤ
  published : ℕ
  cursor : ℤ

variable {V : Type}

/-- pointer_usage[i].fetch_add(d) (fetch_sub is fetch_add of the
negation): the counter is replaced by its wrapped sum with d. -/
def usageAdd (r : RingState V) (i : ℕ) (d : ℤ) : RingState V :=
  { r with usage := Function.update r.usage i (wrap32 (r.usage i + d)) }

/-- Successful compare_exchange_weak on line 62: pointer_usage[i] is
replaced by under_construction_label + 1. -/
def casStore (r : RingState V) (i : ℕ) : RingState V :=
  { r with usage := Function.update r.usage i (LABEL + 1) }

/-- Constructor (lines 39-41) plus the member initializers (lines 97-100):
slot 0 holds the initial handle, every other slot holds a null handle, all
usage counters are 0, the published index is 0 and the write cursor is
1 % ring_size. -/
def construct (R : ℕ) (p : V) : RingState V :=
  { pointers := Function.update (fun _ => none) 0 (some p)
    usage := fun _ => 0
    published := 0
    cursor := ((1 % R : ℕ) : ℤ) }

/-- One iteration of the writer loop of operator= (lines 45-76), executed
sequentially (no interleaved effects, no spurious CAS failure).  Returns
the ring after the iteration and true when the iteration published
(returned), false when it abandoned the candidate (continue). -/
def assignIter (R : ℕ) (r : RingState V) (v : V) : RingState V × Bool :=
  let idx := idxOfCursor R r.cursor
  let r1 : RingState V := { r with cursor := wrap32 (r.cursor + 1) }
  let r2 := usageAdd r1 idx 1
  if idx = r2.published then
    (usageAdd r2 idx (-1), false)
  else if r2.usage idx = 1 then
    let r3 := casStore r2 idx
    let r4 : RingState V := { r3 with pointers := Function.update r3.pointers idx (some v) }
    let r5 := usageAdd r4 idx (-LABEL)
    let r6 : RingState V := { r5 with published := idx }
    (usageAdd r6 idx (-1), true)
  else
    (usageAdd r2 idx (-1), false)

/-- The for(;;) loop of operator= (lines 45-76), with fuel bounding the
number of iterations; none means the fuel was exhausted before the loop
returned. -/
def assignLoop (R : ℕ) (v : V) : ℕ → RingState V → Option (RingState V)
  | 0, _ => none
  | fuel + 1, r =>
    match assignIter R r v with
    | (r2, true) => some r2
    | (r2, false) => assignLoop R v fuel r2

/-- One iteration of the writer loop of operator= (lines 45-76), executed
with no interleaved effects but with the weak CAS of line 62 resolved by
sp: with sp = true the CAS fails spuriously even when the compared
counter is 1 (assignIter is the sp = false resolution). -/
def assignIterW (R : ℕ) (r : RingState V) (v : V) (sp : Bool) : RingState V × Bool :=
  let idx := idxOfCursor R r.cursor
  let r1 : RingState V := { r with cursor := wrap32 (r.cursor + 1) }
  let r2 := usageAdd r1 idx 1
  if idx = r2.published then
    (usageAdd r2 idx (-1), false)
  else if r2.usage idx = 1 ∧ sp = false then
    let r3 := casStore r2 idx
    let r4 : RingState V := { r3 with pointers := Function.update r3.pointers idx (some v) }
    let r5 := usageAdd r4 idx (-LABEL)
    let r6 : RingState V := { r5 with published := idx }
    (usageAdd r6 idx (-1), true)
  else
    (usageAdd r2 idx (-1), false)

/-- The for(;;) loop of operator= (lines 45-76) carrying one weak-CAS
spurious-failure bit per iteration; the list of bits also bounds the
number of iterations, and none means the loop had not returned when the
bits ran out. -/
def assignLoopW (R : ℕ) (v : V) : List Bool → RingState V → Option (RingState V)
  | [], _ => none
  | sp :: sps, r =>
    match assignIterW R r v sp with
    | (r2, true) => some r2
    | (r2, false) => assignLoopW R v sps r2

/-- One iteration of the reader loop of operator shared_ptr
(lines 81-93), executed sequentially: read the published index, fetch_add
the slot's usage observing the pre-value, and either retry (none) or copy
the slot's handle out (some result), releasing the usage in both cases. -/
def loadIter (r : RingState V) : Option (Option V) × RingState V :=
  let idx := r.published
  let u := r.usage idx
  let r1 := usageAdd r idx 1
  if LABEL ≤ u then
    (none, usageAdd r1 idx (-1))
  else
    (some (r1.pointers idx), usageAdd r1 idx (-1))

/-- The for(;;) loop of operator shared_ptr (lines 81-93) with fuel;
returns the copied handle and the ring state after the call. -/
def loadLoop : ℕ → RingState V → Option (Option V × RingState V)
  | 0, _ => none
  | fuel + 1, r =>
    match loadIter r with
    | (some res, r2) => some (res, r2)
    | (none, r2) => loadLoop fuel r2

/-! ### Small-step interleaving system -/

/-- Program counter of one thread.  Writer states carry the looping flag
(whether the thread starts a new assign after finishing one, as the
benchmark writer threads do), the value being assigned and, once chosen,
the candidate slot.  Reader states carry the slot being read and the
copied result.  Each state names the next atomic access the thread will
perform. -/
inductive TState (V : Type) where
  /-- Writer about to execute line 48 (fetch_add on the write cursor). -/
  | wstart (looping : Bool) (v : V)
  /-- Writer about to execute line 51 (fetch_add(1) on usage[idx]). -/
  | wpreinc (looping : Bool) (v : V) (idx : ℕ)
  /-- Writer about to execute line 53 (load of the published index). -/
  | wprecheck (looping : Bool) (v : V) (idx : ℕ)
  /-- Writer about to execute line 62 (compare_exchange_weak). -/
  | wprecas (looping : Bool) (v : V) (idx : ℕ)
  /-- Writer about to execute line 54 or 63 (fetch_sub(1), then retry). -/
  | wabandon (looping : Bool) (v : V) (idx : ℕ)
  /-- Writer about to execute line 68 (store the new handle). -/
  | wprewrite (looping : Bool) (v : V) (idx : ℕ)
  /-- Writer about to execute line 70 (fetch_sub(under_construction_label)). -/
  | wpredowngrade (looping : Bool) (v : V) (idx : ℕ)
  /-- Writer about to execute line 72 (store to the published index). -/
  | wprepublish (looping : Bool) (v : V) (idx : ℕ)
  /-- Writer about to execute line 74 (final fetch_sub(1)). -/
  | wprerelease (looping : Bool) (v : V) (idx : ℕ)
  /-- Writer finished (line 75 returned). -/
  | wdone
  /-- Reader about to execute line 82 (load of the published index). -/
  | rstart
  /-- Reader about to execute line 83 (fetch_add(1) on usage[idx]). -/
  | rpreinc (idx : ℕ)
  /-- Reader about to execute line 86 (fetch_sub(1), then retry). -/
  | rabandon (idx : ℕ)
  /-- Reader about to execute line 90 (copy the slot's handle). -/
  | rcopy (idx : ℕ)
  /-- Reader about to execute line 91 (fetch_sub(1)). -/
  | rrelease (idx : ℕ) (res : Option V)
  /-- Reader finished (line 92 returned res). -/
  | rdone (res : Option V)
deriving DecidableEq

/-- State of the whole system: the shared ring object plus the program
counter of each of the n threads. -/
@[ext] structure Sys (n : ℕ) (V : Type) where
  ring : RingState V
  threads : Fin n → TState V

variable {n : ℕ}

/-- One scheduler step: thread t performs its next atomic access.  sp
resolves the weak CAS of line 62 when t is at that access: with sp = true
the CAS fails spuriously even if the compared value is 1. -/
def stepThread (R : ℕ) (s : Sys n V) (t : Fin n) (sp : Bool) : Sys n V :=
  match s.threads t with
  | .wstart l v =>
    { ring := { s.ring with cursor := wrap32 (s.ring.cursor + 1) }
      threads := Function.update s.threads t (.wpreinc l v (idxOfCursor R s.ring.cursor)) }
  | .wpreinc l v i =>
    { ring := usageAdd s.ring i 1
      threads := Function.update s.threads t (.wprecheck l v i) }
  | .wprecheck l v i =>
    { ring := s.ring
      threads := Function.update s.threads t
        (if s.ring.published = i then .wabandon l v i else .wprecas l v i) }
  | .wprecas l v i =>
    if s.ring.usage i = 1 ∧ sp = false then
      { ring := casStore s.ring i
        threads := Function.update s.threads t (.wprewrite l v i) }
    else
      { ring := s.ring
        threads := Function.update s.threads t (.wabandon l v i) }
  | .wabandon l v i =>
    { ring := usageAdd s.ring i (-1)
      threads := Function.update s.threads t (.wstart l v) }
  | .wprewrite l v i =>
    { ring := { s.ring with pointers := Function.update s.ring.pointers i (some v) }
      threads := Function.update s.threads t (.wpredowngrade l v i) }
  | .wpredowngrade l v i =>
    { ring := usageAdd s.ring i (-LABEL)
      threads := Function.update s.threads t (.wprepublish l v i) }
  | .wprepublish l v i =>
    { ring := { s.ring with published := i }
      threads := Function.update s.threads t (.wprerelease l v i) }
  | .wprerelease l v i =>
    { ring := usageAdd s.ring i (-1)
      threads := Function.update s.threads t (if l then .wstart l v else .wdone) }
  | .wdone => s
  | .rstart =>
    { ring := s.ring
      threads := Function.update s.threads t (.rpreinc s.ring.published) }
  | .rpreinc i =>
    { ring := usageAdd s.ring i 1
      threads := Function.update s.threads t
        (if LABEL ≤ s.ring.usage i then .rabandon i else .rcopy i) }
  | .rabandon i =>
    { ring := usageAdd s.ring i (-1)
      threads := Function.update s.threads t .rstart }
  | .rcopy i =>
    { ring := s.ring
      threads := Function.update s.threads t (.rrelease i (s.ring.pointers i)) }
  | .rrelease i res =>
    { ring := usageAdd s.ring i (-1)
      threads := Function.update s.threads t (.rdone res) }
  | .rdone _ => s

/-- Run a finite schedule: a list of (thread, spurious-CAS) steps. -/
def run (R : ℕ) : Sys n V → List (Fin n × Bool) → Sys n V
  | s, [] => s
  | s, (t, b) :: l => run R (stepThread R s t b) l

/-- Initial duty of a thread: a writer assigning v (looping when the
thread re-enters operator= after returning, as the benchmark writers do)
or a reader executing one operator shared_ptr call. -/
inductive Job (V : Type) where
  | writer (looping : Bool) (v : V)
  | reader

/-- Initial program counter of a job. -/
def initTState : Job V → TState V
  | .writer l v => .wstart l v
  | .reader => .rstart

/-- Initial system: a freshly constructed ring (initial handle p) plus one
thread per job, none having taken a step yet. -/
def initSys (R : ℕ) (p : V) (tasks : Fin n → Job V) : Sys n V :=
  { ring := construct R p, threads := fun t => initTState (tasks t) }

/-- True on the writer state that is about to fetch the write cursor:
counting these steps counts started loop iterations of operator=. -/
def isStart : TState V → Bool
  | .wstart _ _ => true
  | _ => false

/-- Number of loop iterations thread t starts during a schedule (an
observer function over the run, not part of the modelled program). -/
def countFetches (R : ℕ) : Sys n V → List (Fin n × Bool) → Fin n → ℕ
  | _, [], _ => 0
  | s, (u, b) :: l, t =>
    (if u = t ∧ isStart (s.threads t) then 1 else 0) +
      countFetches R (stepThread R s u b) l t

/-! ### Accounting of the usage counters -/

/-- Contribution of one thread to a slot's usage counter through the plain
fetch_add(1) of lines 51 / 83: 1 while the thread is between its increment
and the matching decrement on slot j, else 0. -/
def refC : TState V → ℕ → ℤ
  | .wstart _ _, _ => 0
  | .wpreinc _ _ _, _ => 0
  | .wprecheck _ _ i, j => if i = j then 1 else 0
  | .wprecas _ _ i, j => if i = j then 1 else 0
  | .wabandon _ _ i, j => if i = j then 1 else 0
  | .wprewrite _ _ i, j => if i = j then 1 else 0
  | .wpredowngrade _ _ i, j => if i = j then 1 else 0
  | .wprepublish _ _ i, j => if i = j then 1 else 0
  | .wprerelease _ _ i, j => if i = j then 1 else 0
  | .wdone, _ => 0
  | .rstart, _ => 0
  | .rpreinc _, _ => 0
  | .rabandon i, j => if i = j then 1 else 0
  | .rcopy i, j => if i = j then 1 else 0
  | .rrelease i _, j => if i = j then 1 else 0
  | .rdone _, _ => 0

/-- Contribution of one thread to the exclusive-construction part of a
slot's usage counter: 1 while the thread is inside the exclusive window
(between a successful CAS on line 62 and the downgrade on line 70), during
which the counter carries an extra under_construction_label. -/
def exclC : TState V → ℕ → ℤ
  | .wprewrite _ _ i, j => if i = j then 1 else 0
  | .wpredowngrade _ _ i, j => if i = j then 1 else 0
  | _, _ => 0

/-- True when the thread is a reader that has passed the sentinel check
and is about to copy the slot's handle out (line 90). -/
def copyC : TState V → ℕ → ℤ
  | .rcopy i, j => if i = j then 1 else 0
  | _, _ => 0

/-- Sum of the plain-reference contributions of a family of threads to
slot i. -/
def refCountF (thr : Fin n → TState V) (i : ℕ) : ℤ := ∑ t : Fin n, refC (thr t) i

/-- Sum of the exclusive-window contributions of a family of threads to
slot i. -/
def exclCountF (thr : Fin n → TState V) (i : ℕ) : ℤ := ∑ t : Fin n, exclC (thr t) i

/-- Sum of the plain-reference contributions of all threads to slot i. -/
def refCount (s : Sys n V) (i : ℕ) : ℤ := refCountF s.threads i

/-- Sum of the exclusive-window contributions of all threads to slot i. -/
def exclCount (s : Sys n V) (i : ℕ) : ℤ := exclCountF s.threads i

/-- The candidate slot a thread's program counter carries is within the
ring bounds. -/
def idxB (R : ℕ) : TState V → Prop
  | .wstart _ _ => True
  | .wpreinc _ _ i => i < R
  | .wprecheck _ _ i => i < R
  | .wprecas _ _ i => i < R
  | .wabandon _ _ i => i < R
  | .wprewrite _ _ i => i < R
  | .wpredowngrade _ _ i => i < R
  | .wprepublish _ _ i => i < R
  | .wprerelease _ _ i => i < R
  | .wdone => True
  | .rstart => True
  | .rpreinc i => i < R
  | .rabandon i => i < R
  | .rcopy i => i < R
  | .rrelease i _ => i < R
  | .rdone _ => True

/-- Global invariant of the interleaving system: every usage counter is
exactly under_construction_label times the number of threads in the
exclusive window on that slot plus the number of threads holding a plain
reference; at most one thread is in the exclusive window of a slot; no
reader is mid-copy on a slot whose exclusive window is occupied; the
published index and every carried candidate index are within the ring. -/
structure Inv (R : ℕ) (s : Sys n V) : Prop where
  usage_eq : ∀ i, s.ring.usage i = LABEL * exclCount s i + refCount s i
  excl_le : ∀ i, exclCount s i ≤ 1
  no_copy : ∀ i t u, exclC (s.threads t) i = 1 → copyC (s.threads u) i = 1 → False
  pub_lt : s.ring.published < R
  idx_lt : ∀ t, idxB R (s.threads t)

/-! ### Concrete systems used for the concurrent counterexamples -/

/-- Two-writer system used against the bounded-retry claim: thread 0 is a
single assign(11) call, thread 1 is a looping writer repeatedly assigning
22 (as the benchmark writer threads do); ring size 4, initial value 7. -/
def cex2Init : Sys 2 ℕ :=
  initSys 4 7 ![Job.writer false 11, Job.writer true 22]

/-- The system state reached after every starvation round: the write
cursor is c, the published index is the slot of cursor c - 5, no usage is
held, thread 0 is about to start a loop iteration of its single assign and
thread 1 is between two of its assign calls. -/
def mkRound (c : ℤ) (ptrs : ℕ → Option ℕ) : Sys 2 ℕ :=
  { ring :=
      { pointers := ptrs
        usage := fun _ => 0
        published := (idxOfCursor 4 c + 3) % 4
        cursor := c }
    threads := ![.wstart false 11, .wstart true 22] }

/-- Schedule of one full assign call by thread 1 (no abandoned
iteration): fetch cursor, increment usage, check index, CAS, store
handle, downgrade, publish, release. -/
def oneAssign1 : List (Fin 2 × Bool) :=
  [((1 : Fin 2), false), (1, false), (1, false), (1, false),
   (1, false), (1, false), (1, false), (1, false)]

/-- One starvation round: thread 0 fetches a cursor candidate, thread 1
completes four assign calls (the fourth publishes exactly the candidate
slot of thread 0), then thread 0 increments, sees its candidate published,
decrements and is back at the start of the loop. -/
def roundSched : List (Fin 2 × Bool) :=
  ((0 : Fin 2), false) :: (oneAssign1 ++ (oneAssign1 ++ (oneAssign1 ++ (oneAssign1 ++
    [((0 : Fin 2), false), ((0 : Fin 2), false), ((0 : Fin 2), false)]))))

/-- k starvation rounds in sequence. -/
def repSched : ℕ → List (Fin 2 × Bool)
  | 0 => []
  | k + 1 => repSched k ++ roundSched

/-- Four-writer system used against the CAS claim: thread 0 performs one
assign(5), threads 1-3 are writers used only to advance the shared write
cursor. -/
def cex4Init : Sys 4 ℕ :=
  initSys 4 7 ![Job.writer false 5, Job.writer false 6, Job.writer false 6, Job.writer false 6]

/-- Schedule under which thread 0 reaches the CAS with usage exactly 1,
the weak CAS fails spuriously (the true bit), thread 0 releases and
retries, threads 1-3 advance the cursor by three, and thread 0 fetches a
new candidate that is the same slot as the failed attempt. -/
def cex4Sched : List (Fin 4 × Bool) :=
  [((0 : Fin 4), false), (0, false), (0, false), (0, true), (0, false),
   (1, false), (2, false), (3, false), (0, false)]

/-- Five-thread system used against the never-overwrites-published claim:
thread 0 is a looping writer assigning 100, threads 1-3 only advance the
cursor, thread 4 performs one assign(200); ring size 4, initial value 7. -/
def cex5Init : Sys 5 ℕ :=
  initSys 4 7
    ![Job.writer true 100, Job.writer false 50, Job.writer false 50,
      Job.writer false 50, Job.writer false 200]

/-- Schedule A: thread 0 publishes slot 1, threads 1-3 advance the cursor,
thread 4 selects its candidate (slot 1, the published slot at that
moment), thread 0 publishes slot 2, and thread 4 then passes the check,
gains exclusivity and overwrites slot 1. -/
def cex5SchedA : List (Fin 5 × Bool) :=
  [((0 : Fin 5), false), (0, false), (0, false), (0, false), (0, false),
   (0, false), (0, false), (0, false),
   (1, false), (2, false), (3, false),
   (4, false), (4, false),
   (0, false), (0, false), (0, false), (0, false), (0, false), (0, false),
   (0, false), (0, false),
   (4, false), (4, false), (4, false)]

/-- Schedule B: thread 0 acquires exclusivity on slot 1, thread 4
increments the same slot during the window and passes the published-index
check while the slot is still unpublished, thread 0 then publishes slot 1
and releases, after which the CAS of thread 4 succeeds on the now
published slot and thread 4 overwrites its handle. -/
def cex5SchedB : List (Fin 5 × Bool) :=
  [((0 : Fin 5), false), (0, false), (0, false), (0, false),
   (1, false), (2, false), (3, false),
   (4, false), (4, false), (4, false),
   (0, false), (0, false), (0, false), (0, false),
   (4, false), (4, false)]

/-- True on the program counters of the read path (operator shared_ptr,
lines 79-94). -/
def readerPc : TState V → Prop
  | .rstart => True
  | .rpreinc _ => True
  | .rabandon _ => True
  | .rcopy _ => True
  | .rrelease _ _ => True
  | _ => False

/-- The scenario of the spec: ring size 4, initial value 0, one writer
assigns 1, 2, 3, 4, 5 in order with no concurrency, then one load; the
result of the load. -/
def scnFive : Option (Option ℕ) :=
  (((((assignLoop 4 1 2 (construct 4 0)).bind (assignLoop 4 2 2)).bind
    (assignLoop 4 3 2)).bind (assignLoop 4 4 2)).bind (assignLoop 4 5 2)).bind
    (fun r => (loadLoop 1 r).map Prod.fst)

/-! ### Arithmetic lemmas -/

theorem wrap32_id {z : ℤ} (h1 : -2147483648 ≤ z) (h2 : z < 2147483648) :
    wrap32 z = z := by
  unfold wrap32
  omega

theorem wrap32_wrap32_add (a b : ℤ) : wrap32 (wrap32 a + b) = wrap32 (a + b) := by
  unfold wrap32
  omega

theorem idxOfCursor_lt {R : ℕ} (hR : 0 < R) (c : ℤ) : idxOfCursor R c < R :=
  Nat.mod_lt _ hR

theorem idxOfCursor_four (c : ℤ) : idxOfCursor 4 c = (c % 4).toNat := by
  unfold idxOfCursor
  omega

theorem idxOfCursor_four_wrap32 (c : ℤ) : idxOfCursor 4 (wrap32 c) = idxOfCursor 4 c := by
  rw [idxOfCursor_four, idxOfCursor_four]
  unfold wrap32
  omega

theorem idxOfCursor_eq {R : ℕ} (hR : (R : ℤ) ∣ 18446744073709551616) (c : ℤ) :
    idxOfCursor R c = (c % (R : ℤ)).toNat := by
  unfold idxOfCursor
  rcases Nat.eq_zero_or_pos R with h0 | hpos
  · exfalso
    rw [h0] at hR
    norm_num at hR
  have hmod : (c % 18446744073709551616) % (R : ℤ) = c % (R : ℤ) :=
    Int.emod_emod_of_dvd c hR
  have hnn : 0 ≤ c % 18446744073709551616 := Int.emod_nonneg c (by norm_num)
  have hRz : (R : ℤ) ≠ 0 := by exact_mod_cast hpos.ne'
  have hnn2 : 0 ≤ c % (R : ℤ) := Int.emod_nonneg c hRz
  have key : (((c % 18446744073709551616).toNat % R : ℕ) : ℤ) =
      (((c % (R : ℤ)).toNat : ℕ) : ℤ) := by
    push_cast [Int.toNat_of_nonneg hnn, Int.toNat_of_nonneg hnn2]
    exact hmod
  exact_mod_cast key

theorem idxOfCursor_wrap32 {R : ℕ} (hR : (R : ℤ) ∣ 4294967296) (c : ℤ) :
    idxOfCursor R (wrap32 c) = idxOfCursor R c := by
  have hR64 : (R : ℤ) ∣ 18446744073709551616 :=
    hR.trans (by norm_num)
  rw [idxOfCursor_eq hR64, idxOfCursor_eq hR64]
  have : wrap32 c % (R : ℤ) = c % (R : ℤ) := by
    have h1 : wrap32 c % 4294967296 = c % 4294967296 := by
      unfold wrap32; omega
    calc wrap32 c % (R : ℤ) = wrap32 c % 4294967296 % (R : ℤ) :=
          (Int.emod_emod_of_dvd _ hR).symm
    _ = c % 4294967296 % (R : ℤ) := by rw [h1]
    _ = c % (R : ℤ) := Int.emod_emod_of_dvd _ hR
  rw [this]

/-! ### Small frame lemmas for ring updates -/

@[simp] theorem usageAdd_pointers (r : RingState V) (i : ℕ) (d : ℤ) :
    (usageAdd r i d).pointers = r.pointers := rfl

@[simp] theorem usageAdd_published (r : RingState V) (i : ℕ) (d : ℤ) :
    (usageAdd r i d).published = r.published := rfl

@[simp] theorem usageAdd_cursor (r : RingState V) (i : ℕ) (d : ℤ) :
    (usageAdd r i d).cursor = r.cursor := rfl

@[simp] theorem usageAdd_usage_same (r : RingState V) (i : ℕ) (d : ℤ) :
    (usageAdd r i d).usage i = wrap32 (r.usage i + d) := by
  simp [usageAdd]

theorem usageAdd_usage_ne (r : RingState V) {i j : ℕ} (d : ℤ) (h : j ≠ i) :
    (usageAdd r i d).usage j = r.usage j := by
  simp [usageAdd, Function.update_noteq h]

@[simp] theorem casStore_pointers (r : RingState V) (i : ℕ) :
    (casStore r i).pointers = r.pointers := rfl

@[simp] theorem casStore_published (r : RingState V) (i : ℕ) :
    (casStore r i).published = r.published := rfl

@[simp] theorem casStore_cursor (r : RingState V) (i : ℕ) :
    (casStore r i).cursor = r.cursor := rfl

@[simp] theorem casStore_usage_same (r : RingState V) (i : ℕ) :
    (casStore r i).usage i = LABEL + 1 := by
  simp [casStore]

theorem casStore_usage_ne (r : RingState V) {i j : ℕ} (h : j ≠ i) :
    (casStore r i).usage j = r.usage j := by
  simp [casStore, Function.update_noteq h]

/-! ### Counting lemmas -/

theorem refC_nonneg (ts : TState V) (j : ℕ) : 0 ≤ refC ts j := by
  cases ts <;> simp only [refC] <;> (try split) <;> norm_num

theorem refC_le_one (ts : TState V) (j : ℕ) : refC ts j ≤ 1 := by
  cases ts <;> simp only [refC] <;> (try split) <;> norm_num

theorem exclC_nonneg (ts : TState V) (j : ℕ) : 0 ≤ exclC ts j := by
  cases ts <;> simp only [exclC] <;> (try split) <;> norm_num

theorem exclC_le_refC (ts : TState V) (j : ℕ) : exclC ts j ≤ refC ts j := by
  cases ts <;> simp only [exclC, refC] <;> (try split) <;> norm_num

theorem copyC_nonneg (ts : TState V) (j : ℕ) : 0 ≤ copyC ts j := by
  cases ts <;> simp only [copyC] <;> (try split) <;> norm_num

theorem copyC_le_refC (ts : TState V) (j : ℕ) : copyC ts j ≤ refC ts j := by
  cases ts <;> simp only [copyC, refC] <;> (try split) <;> norm_num

theorem sum_apply_update (g : TState V → ℤ) (f : Fin n → TState V) (t : Fin n)
    (x : TState V) :
    (∑ u : Fin n, g (Function.update f t x u)) = (∑ u : Fin n, g (f u)) - g (f t) + g x := by
  have h : (fun u => g (Function.update f t x u)) =
      Function.update (fun u => g (f u)) t (g x) := by
    funext u
    by_cases hu : u = t
    · subst hu; simp
    · simp [Function.update_noteq hu]
  calc (∑ u : Fin n, g (Function.update f t x u))
      = ∑ u : Fin n, Function.update (fun u => g (f u)) t (g x) u := by rw [h]
    _ = g x + ∑ u ∈ Finset.univ.erase t, g (f u) := by
        rw [Finset.sum_update_of_mem (Finset.mem_univ t), Finset.sdiff_singleton_eq_erase]
    _ = (∑ u : Fin n, g (f u)) - g (f t) + g x := by
        rw [← Finset.add_sum_erase Finset.univ (fun u => g (f u)) (Finset.mem_univ t)]
        ring

theorem refCountF_update (thr : Fin n → TState V) (t : Fin n) (x : TState V) (i : ℕ) :
    refCountF (Function.update thr t x) i =
      refCountF thr i - refC (thr t) i + refC x i := by
  simpa [refCountF] using sum_apply_update (fun ts => refC ts i) thr t x

theorem exclCountF_update (thr : Fin n → TState V) (t : Fin n) (x : TState V) (i : ℕ) :
    exclCountF (Function.update thr t x) i =
      exclCountF thr i - exclC (thr t) i + exclC x i := by
  simpa [exclCountF] using sum_apply_update (fun ts => exclC ts i) thr t x

theorem refCountF_nonneg (thr : Fin n → TState V) (i : ℕ) : 0 ≤ refCountF thr i :=
  Finset.sum_nonneg fun u _ => refC_nonneg (thr u) i

theorem refCountF_le (thr : Fin n → TState V) (i : ℕ) : refCountF thr i ≤ n := by
  calc refCountF thr i ≤ ∑ _u : Fin n, (1 : ℤ) :=
        Finset.sum_le_sum fun u _ => refC_le_one (thr u) i
    _ = n := by simp [Finset.sum_const, Finset.card_univ]

theorem exclCountF_nonneg (thr : Fin n → TState V) (i : ℕ) : 0 ≤ exclCountF thr i :=
  Finset.sum_nonneg fun u _ => exclC_nonneg (thr u) i

theorem exclC_mem_le (thr : Fin n → TState V) (t : Fin n) (i : ℕ) :
    exclC (thr t) i ≤ exclCountF thr i :=
  Finset.single_le_sum (fun u _ => exclC_nonneg (thr u) i) (Finset.mem_univ t)

theorem refC_mem_le (thr : Fin n → TState V) (t : Fin n) (i : ℕ) :
    refC (thr t) i ≤ refCountF thr i :=
  Finset.single_le_sum (fun u _ => refC_nonneg (thr u) i) (Finset.mem_univ t)

theorem exclCountF_eq_zero {thr : Fin n → TState V} {i : ℕ}
    (h : exclCountF thr i = 0) (t : Fin n) : exclC (thr t) i = 0 :=
  (Finset.sum_eq_zero_iff_of_nonneg
    (fun u _ => exclC_nonneg (thr u) i)).mp h t (Finset.mem_univ t)

theorem sole_ref {thr : Fin n → TState V} {i : ℕ} {t : Fin n}
    (hsum : refCountF thr i = 1) (ht : refC (thr t) i = 1) :
    ∀ u : Fin n, u ≠ t → refC (thr u) i = 0 := by
  intro u hu
  have hdecomp := Finset.add_sum_erase Finset.univ (fun w => refC (thr w) i)
    (Finset.mem_univ t)
  simp only at hdecomp
  rw [refCountF] at hsum
  have herase : ∑ w ∈ Finset.univ.erase t, refC (thr w) i = 0 := by
    rw [ht] at hdecomp
    linarith
  exact (Finset.sum_eq_zero_iff_of_nonneg
    (fun w _ => refC_nonneg (thr w) i)).mp herase u
    (Finset.mem_erase.mpr ⟨hu, Finset.mem_univ u⟩)

/-- A thread inside the exclusive window forces the usage counter of its
slot at least to the sentinel. -/
theorem usage_ge_label {R : ℕ} {s : Sys n V} (hInv : Inv R s) {t : Fin n} {i : ℕ}
    (h : exclC (s.threads t) i = 1) : LABEL ≤ s.ring.usage i := by
  have h1 := hInv.usage_eq i
  have h2 : 1 ≤ exclCountF s.threads i := h ▸ exclC_mem_le s.threads t i
  have h3 : exclC (s.threads t) i ≤ refC (s.threads t) i := exclC_le_refC _ i
  have h4 : refC (s.threads t) i ≤ refCountF s.threads i := refC_mem_le s.threads t i
  have h5 := refCountF_nonneg s.threads i
  rw [exclCount, refCount] at h1
  have hL : (0 : ℤ) ≤ LABEL := by norm_num [LABEL]
  have h6 : LABEL * 1 ≤ LABEL * exclCountF s.threads i :=
    mul_le_mul_of_nonneg_left h2 hL
  linarith

/-- Bounds on every usage counter implied by the invariant. -/
theorem usage_bounds {R : ℕ} {s : Sys n V} (hInv : Inv R s)
    (i : ℕ) : 0 ≤ s.ring.usage i ∧ s.ring.usage i ≤ LABEL + n := by
  have h1 := hInv.usage_eq i
  rw [exclCount, refCount] at h1
  have h2 := exclCountF_nonneg s.threads i
  have h3 := hInv.excl_le i
  rw [exclCount] at h3
  have h4 := refCountF_nonneg s.threads i
  have h5 := refCountF_le s.threads i
  unfold LABEL at h1 ⊢
  constructor <;> nlinarith

/-- Preservation of the exclusivity-versus-copy disjointness under a
thread update whose new state claims no more than the old one. -/
theorem no_copy_update {thr : Fin n → TState V} {t : Fin n} {x : TState V}
    (h : ∀ i t1 u, exclC (thr t1) i = 1 → copyC (thr u) i = 1 → False)
    (hex : ∀ j, exclC x j = 1 → exclC (thr t) j = 1)
    (hcp : ∀ j, copyC x j = 1 → copyC (thr t) j = 1) :
    ∀ i t1 u, exclC (Function.update thr t x t1) i = 1 →
      copyC (Function.update thr t x u) i = 1 → False := by
  intro i t1 u h1 h2
  rcases eq_or_ne t1 t with e1 | e1 <;> rcases eq_or_ne u t with e2 | e2
  · rw [e1, Function.update_same] at h1
    rw [e2, Function.update_same] at h2
    exact h i t t (hex i h1) (hcp i h2)
  · rw [e1, Function.update_same] at h1
    rw [Function.update_noteq e2] at h2
    exact h i t u (hex i h1) h2
  · rw [Function.update_noteq e1] at h1
    rw [e2, Function.update_same] at h2
    exact h i t1 t h1 (hcp i h2)
  · rw [Function.update_noteq e1] at h1
    rw [Function.update_noteq e2] at h2
    exact h i t1 u h1 h2

/-- Preservation of the index bounds under a thread update. -/
theorem idxB_update {R : ℕ} {thr : Fin n → TState V} {t : Fin n} {x : TState V}
    (h : ∀ u, idxB R (thr u)) (hx : idxB R x) :
    ∀ u, idxB R (Function.update thr t x u) := by
  intro u
  by_cases hu : u = t
  · subst hu; rw [Function.update_same]; exact hx
  · rw [Function.update_noteq hu]; exact h u

/-! ### Preservation of the invariant, one lemma per program counter -/

theorem inv_step_wstart {R : ℕ} {s : Sys n V} {t : Fin n} {sp : Bool} {l : Bool} {v : V}
    (hInv : Inv R s) (ht : s.threads t = .wstart l v) :
    Inv R (stepThread R s t sp) := by
  have hR : 0 < R := Nat.lt_of_le_of_lt (Nat.zero_le _) hInv.pub_lt
  have hstep : stepThread R s t sp =
      { ring := { s.ring with cursor := wrap32 (s.ring.cursor + 1) }
        threads := Function.update s.threads t (.wpreinc l v (idxOfCursor R s.ring.cursor)) } := by
    unfold stepThread; rw [ht]
  rw [hstep]
  refine ⟨?_, ?_, ?_, ?_, ?_⟩
  · intro j
    have h0 := hInv.usage_eq j
    simp only [exclCount, refCount] at h0 ⊢
    rw [exclCountF_update, refCountF_update, ht]
    simp only [refC, exclC]
    linarith
  · intro j
    have h0 := hInv.excl_le j
    simp only [exclCount] at h0 ⊢
    rw [exclCountF_update, ht]
    simp only [exclC]
    linarith
  · refine no_copy_update hInv.no_copy ?_ ?_
    · intro j h; simp [exclC] at h
    · intro j h; simp [copyC] at h
  · exact hInv.pub_lt
  · exact idxB_update hInv.idx_lt (idxOfCursor_lt hR _)

theorem inv_step_wpreinc {R : ℕ} {s : Sys n V} {t : Fin n} {sp : Bool} {l : Bool} {v : V}
    {i : ℕ} (hInv : Inv R s) (hn : n < 1073741824)
    (ht : s.threads t = .wpreinc l v i) :
    Inv R (stepThread R s t sp) := by
  have hstep : stepThread R s t sp =
      { ring := usageAdd s.ring i 1
        threads := Function.update s.threads t (.wprecheck l v i) } := by
    unfold stepThread; rw [ht]
  rw [hstep]
  have hb := usage_bounds hInv i
  refine ⟨?_, ?_, ?_, ?_, ?_⟩
  · intro j
    have h0 := hInv.usage_eq j
    simp only [exclCount, refCount] at h0 ⊢
    rw [exclCountF_update, refCountF_update, ht]
    rcases eq_or_ne j i with hij | hij
    · subst hij
      rw [usageAdd_usage_same]
      have hw : wrap32 (s.ring.usage j + 1) = s.ring.usage j + 1 := by
        apply wrap32_id <;> unfold LABEL at hb <;> omega
      rw [hw]
      simp only [refC, exclC, eq_self_iff_true, if_true]
      linarith
    · rw [usageAdd_usage_ne _ _ hij]
      simp only [refC, exclC]
      rw [if_neg (Ne.symm hij)]
      linarith
  · intro j
    have h0 := hInv.excl_le j
    simp only [exclCount] at h0 ⊢
    rw [exclCountF_update, ht]
    simp only [exclC]
    linarith
  · refine no_copy_update hInv.no_copy ?_ ?_
    · intro j h; simp [exclC] at h
    · intro j h; simp [copyC] at h
  · exact hInv.pub_lt
  · refine idxB_update hInv.idx_lt ?_
    have := hInv.idx_lt t
    rw [ht] at this
    exact this

theorem inv_step_wprecheck {R : ℕ} {s : Sys n V} {t : Fin n} {sp : Bool} {l : Bool} {v : V}
    {i : ℕ} (hInv : Inv R s) (ht : s.threads t = .wprecheck l v i) :
    Inv R (stepThread R s t sp) := by
  have hstep : stepThread R s t sp =
      { ring := s.ring
        threads := Function.update s.threads t
          (if s.ring.published = i then .wabandon l v i else .wprecas l v i) } := by
    unfold stepThread; rw [ht]
  rw [hstep]
  refine ⟨?_, ?_, ?_, ?_, ?_⟩
  · intro j
    have h0 := hInv.usage_eq j
    simp only [exclCount, refCount] at h0 ⊢
    rw [exclCountF_update, refCountF_update, ht]
    split <;> simp only [refC, exclC] <;> linarith
  · intro j
    have h0 := hInv.excl_le j
    simp only [exclCount] at h0 ⊢
    rw [exclCountF_update, ht]
    split <;> simp only [exclC] <;> linarith
  · refine no_copy_update hInv.no_copy ?_ ?_
    · intro j h; split at h <;> simp [exclC] at h
    · intro j h; split at h <;> simp [copyC] at h
  · exact hInv.pub_lt
  · refine idxB_update hInv.idx_lt ?_
    have := hInv.idx_lt t
    rw [ht] at this
    split <;> exact this

theorem inv_step_wprecas {R : ℕ} {s : Sys n V} {t : Fin n} {sp : Bool} {l : Bool} {v : V}
    {i : ℕ} (hInv : Inv R s) (ht : s.threads t = .wprecas l v i) :
    Inv R (stepThread R s t sp) := by
  have hstep : stepThread R s t sp =
      if s.ring.usage i = 1 ∧ sp = false then
        { ring := casStore s.ring i
          threads := Function.update s.threads t (.wprewrite l v i) }
      else
        { ring := s.ring
          threads := Function.update s.threads t (.wabandon l v i) } := by
    unfold stepThread; rw [ht]
  have hrt : refC (s.threads t) i = 1 := by rw [ht]; simp [refC]
  by_cases hc : s.ring.usage i = 1 ∧ sp = false
  · rw [hstep, if_pos hc]
    -- the CAS observed the counter at exactly 1: the writer is the sole
    -- holder and nobody is in the exclusive window of the slot
    have h0 := hInv.usage_eq i
    simp only [exclCount, refCount] at h0
    have hrle : refC (s.threads t) i ≤ refCountF s.threads i := refC_mem_le s.threads t i
    have hee := exclCountF_nonneg s.threads i
    have her := refCountF_nonneg s.threads i
    have hone := hc.1
    have hkey : exclCountF s.threads i = 0 ∧ refCountF s.threads i = 1 := by
      rw [hone] at h0
      unfold LABEL at h0
      constructor <;> omega
    refine ⟨?_, ?_, ?_, ?_, ?_⟩
    · intro j
      have h0j := hInv.usage_eq j
      simp only [exclCount, refCount] at h0j ⊢
      rw [exclCountF_update, refCountF_update, ht]
      rcases eq_or_ne j i with hij | hij
      · subst hij
        rw [casStore_usage_same]
        simp only [refC, exclC, eq_self_iff_true, if_true]
        rw [hone] at h0j
        linarith [hkey.1, hkey.2]
      · rw [casStore_usage_ne _ hij]
        simp only [refC, exclC]
        rw [if_neg (Ne.symm hij)]
        linarith
    · intro j
      have h0 := hInv.excl_le j
      simp only [exclCount] at h0 ⊢
      rw [exclCountF_update, ht]
      simp only [exclC]
      rcases eq_or_ne i j with hij | hij
      · rw [if_pos hij]
        have : exclCountF s.threads j = 0 := hij ▸ hkey.1
        linarith
      · rw [if_neg hij]
        linarith
    · intro i0 t1 u h1 h2
      replace h1 : exclC (Function.update s.threads t (TState.wprewrite l v i) t1) i0 = 1 := h1
      replace h2 : copyC (Function.update s.threads t (TState.wprewrite l v i) u) i0 = 1 := h2
      rcases eq_or_ne u t with e2 | e2
      · rw [e2, Function.update_same] at h2
        simp [copyC] at h2
      · rw [Function.update_noteq e2] at h2
        rcases eq_or_ne t1 t with e1 | e1
        · rw [e1, Function.update_same] at h1
          simp only [exclC] at h1
          have hii : i = i0 := by
            by_contra hne
            rw [if_neg hne] at h1
            norm_num at h1
          subst hii
          have hcu : refC (s.threads u) i = 1 := by
            have hu1 := copyC_le_refC (s.threads u) i
            have hu2 := refC_le_one (s.threads u) i
            linarith
          have := sole_ref hkey.2 hrt u e2
          rw [hcu] at this
          norm_num at this
        · rw [Function.update_noteq e1] at h1
          exact hInv.no_copy i0 t1 u h1 h2
    · exact hInv.pub_lt
    · refine idxB_update hInv.idx_lt ?_
      have := hInv.idx_lt t
      rw [ht] at this
      exact this
  · rw [hstep, if_neg hc]
    refine ⟨?_, ?_, ?_, ?_, ?_⟩
    · intro j
      have h0 := hInv.usage_eq j
      simp only [exclCount, refCount] at h0 ⊢
      rw [exclCountF_update, refCountF_update, ht]
      simp only [refC, exclC]
      linarith
    · intro j
      have h0 := hInv.excl_le j
      simp only [exclCount] at h0 ⊢
      rw [exclCountF_update, ht]
      simp only [exclC]
      linarith
    · refine no_copy_update hInv.no_copy ?_ ?_
      · intro j h; simp [exclC] at h
      · intro j h; simp [copyC] at h
    · exact hInv.pub_lt
    · refine idxB_update hInv.idx_lt ?_
      have := hInv.idx_lt t
      rw [ht] at this
      exact this

theorem inv_step_wabandon {R : ℕ} {s : Sys n V} {t : Fin n} {sp : Bool} {l : Bool} {v : V}
    {i : ℕ} (hInv : Inv R s) (hn : n < 1073741824)
    (ht : s.threads t = .wabandon l v i) :
    Inv R (stepThread R s t sp) := by
  have hstep : stepThread R s t sp =
      { ring := usageAdd s.ring i (-1)
        threads := Function.update s.threads t (.wstart l v) } := by
    unfold stepThread; rw [ht]
  rw [hstep]
  have hb := usage_bounds hInv i
  have hrt : refC (s.threads t) i = 1 := by rw [ht]; simp [refC]
  have hge : 1 ≤ s.ring.usage i := by
    have h0 := hInv.usage_eq i
    simp only [exclCount, refCount] at h0
    have h1 : refC (s.threads t) i ≤ refCountF s.threads i := refC_mem_le s.threads t i
    have h2 := exclCountF_nonneg s.threads i
    have hL : (0 : ℤ) ≤ LABEL := by norm_num [LABEL]
    nlinarith
  refine ⟨?_, ?_, ?_, ?_, ?_⟩
  · intro j
    have h0 := hInv.usage_eq j
    simp only [exclCount, refCount] at h0 ⊢
    rw [exclCountF_update, refCountF_update, ht]
    rcases eq_or_ne j i with hij | hij
    · subst hij
      rw [usageAdd_usage_same]
      have hw : wrap32 (s.ring.usage j + -1) = s.ring.usage j + -1 := by
        apply wrap32_id <;> unfold LABEL at hb <;> omega
      rw [hw]
      simp only [refC, exclC, eq_self_iff_true, if_true]
      linarith
    · rw [usageAdd_usage_ne _ _ hij]
      simp only [refC, exclC]
      rw [if_neg (Ne.symm hij)]
      linarith
  · intro j
    have h0 := hInv.excl_le j
    simp only [exclCount] at h0 ⊢
    rw [exclCountF_update, ht]
    simp only [exclC]
    linarith
  · refine no_copy_update hInv.no_copy ?_ ?_
    · intro j h; simp [exclC] at h
    · intro j h; simp [copyC] at h
  · exact hInv.pub_lt
  · exact idxB_update hInv.idx_lt trivial

theorem inv_step_wprewrite {R : ℕ} {s : Sys n V} {t : Fin n} {sp : Bool} {l : Bool} {v : V}
    {i : ℕ} (hInv : Inv R s) (ht : s.threads t = .wprewrite l v i) :
    Inv R (stepThread R s t sp) := by
  have hstep : stepThread R s t sp =
      { ring := { s.ring with pointers := Function.update s.ring.pointers i (some v) }
        threads := Function.update s.threads t (.wpredowngrade l v i) } := by
    unfold stepThread; rw [ht]
  rw [hstep]
  refine ⟨?_, ?_, ?_, ?_, ?_⟩
  · intro j
    have h0 := hInv.usage_eq j
    simp only [exclCount, refCount] at h0 ⊢
    rw [exclCountF_update, refCountF_update, ht]
    simp only [refC, exclC]
    linarith
  · intro j
    have h0 := hInv.excl_le j
    simp only [exclCount] at h0 ⊢
    rw [exclCountF_update, ht]
    simp only [exclC]
    linarith
  · refine no_copy_update hInv.no_copy ?_ ?_
    · intro j h
      rw [ht]
      simp only [exclC] at h ⊢
      exact h
    · intro j h; simp [copyC] at h
  · exact hInv.pub_lt
  · refine idxB_update hInv.idx_lt ?_
    have := hInv.idx_lt t
    rw [ht] at this
    exact this

theorem inv_step_wpredowngrade {R : ℕ} {s : Sys n V} {t : Fin n} {sp : Bool} {l : Bool}
    {v : V} {i : ℕ} (hInv : Inv R s) (hn : n < 1073741824)
    (ht : s.threads t = .wpredowngrade l v i) :
    Inv R (stepThread R s t sp) := by
  have hstep : stepThread R s t sp =
      { ring := usageAdd s.ring i (-LABEL)
        threads := Function.update s.threads t (.wprepublish l v i) } := by
    unfold stepThread; rw [ht]
  rw [hstep]
  have het : exclC (s.threads t) i = 1 := by rw [ht]; simp [exclC]
  have hei : exclCountF s.threads i = 1 := by
    have h1 : exclC (s.threads t) i ≤ exclCountF s.threads i := exclC_mem_le s.threads t i
    have h2 := hInv.excl_le i
    simp only [exclCount] at h2
    omega
  have hrn := refCountF_nonneg s.threads i
  have hrl := refCountF_le s.threads i
  have hu : s.ring.usage i = LABEL + refCountF s.threads i := by
    have h0 := hInv.usage_eq i
    simp only [exclCount, refCount] at h0
    rw [hei] at h0
    linarith
  refine ⟨?_, ?_, ?_, ?_, ?_⟩
  · intro j
    have h0 := hInv.usage_eq j
    simp only [exclCount, refCount] at h0 ⊢
    rw [exclCountF_update, refCountF_update, ht]
    rcases eq_or_ne j i with hij | hij
    · subst hij
      rw [usageAdd_usage_same]
      have hw : wrap32 (s.ring.usage j + -LABEL) = s.ring.usage j + -LABEL := by
        apply wrap32_id <;> unfold LABEL at hu ⊢ <;> omega
      rw [hw]
      simp only [refC, exclC, eq_self_iff_true, if_true]
      rw [hu]
      have : exclCountF s.threads j = 1 := hei
      linarith
    · rw [usageAdd_usage_ne _ _ hij]
      simp only [refC, exclC]
      rw [if_neg (Ne.symm hij)]
      linarith
  · intro j
    have h0 := hInv.excl_le j
    simp only [exclCount] at h0 ⊢
    rw [exclCountF_update, ht]
    simp only [exclC]
    have := exclC_nonneg (s.threads t) j
    rcases eq_or_ne i j with hij | hij
    · rw [if_pos hij]
      linarith
    · rw [if_neg hij]
      linarith
  · refine no_copy_update hInv.no_copy ?_ ?_
    · intro j h; simp [exclC] at h
    · intro j h; simp [copyC] at h
  · exact hInv.pub_lt
  · refine idxB_update hInv.idx_lt ?_
    have := hInv.idx_lt t
    rw [ht] at this
    exact this

theorem inv_step_wprepublish {R : ℕ} {s : Sys n V} {t : Fin n} {sp : Bool} {l : Bool}
    {v : V} {i : ℕ} (hInv : Inv R s) (ht : s.threads t = .wprepublish l v i) :
    Inv R (stepThread R s t sp) := by
  have hstep : stepThread R s t sp =
      { ring := { s.ring with published := i }
        threads := Function.update s.threads t (.wprerelease l v i) } := by
    unfold stepThread; rw [ht]
  rw [hstep]
  refine ⟨?_, ?_, ?_, ?_, ?_⟩
  · intro j
    have h0 := hInv.usage_eq j
    simp only [exclCount, refCount] at h0 ⊢
    rw [exclCountF_update, refCountF_update, ht]
    simp only [refC, exclC]
    linarith
  · intro j
    have h0 := hInv.excl_le j
    simp only [exclCount] at h0 ⊢
    rw [exclCountF_update, ht]
    simp only [exclC]
    linarith
  · refine no_copy_update hInv.no_copy ?_ ?_
    · intro j h; simp [exclC] at h
    · intro j h; simp [copyC] at h
  · have := hInv.idx_lt t
    rw [ht] at this
    exact this
  · refine idxB_update hInv.idx_lt ?_
    have := hInv.idx_lt t
    rw [ht] at this
    exact this

theorem inv_step_wprerelease {R : ℕ} {s : Sys n V} {t : Fin n} {sp : Bool} {l : Bool}
    {v : V} {i : ℕ} (hInv : Inv R s) (hn : n < 1073741824)
    (ht : s.threads t = .wprerelease l v i) :
    Inv R (stepThread R s t sp) := by
  have hstep : stepThread R s t sp =
      { ring := usageAdd s.ring i (-1)
        threads := Function.update s.threads t (if l then .wstart l v else .wdone) } := by
    unfold stepThread; rw [ht]
  rw [hstep]
  have hxr : ∀ j, refC (if l then TState.wstart l v else TState.wdone (V := V)) j = 0 := by
    intro j; cases l <;> simp [refC]
  have hxe : ∀ j, exclC (if l then TState.wstart l v else TState.wdone (V := V)) j = 0 := by
    intro j; cases l <;> simp [exclC]
  have hxc : ∀ j, copyC (if l then TState.wstart l v else TState.wdone (V := V)) j = 0 := by
    intro j; cases l <;> simp [copyC]
  have hxb : idxB R (if l then TState.wstart l v else TState.wdone (V := V)) := by
    cases l <;> simp [idxB]
  have hb := usage_bounds hInv i
  have hrt : refC (s.threads t) i = 1 := by rw [ht]; simp [refC]
  have hge : 1 ≤ s.ring.usage i := by
    have h0 := hInv.usage_eq i
    simp only [exclCount, refCount] at h0
    have h1 : refC (s.threads t) i ≤ refCountF s.threads i := refC_mem_le s.threads t i
    have h2 := exclCountF_nonneg s.threads i
    have hL : (0 : ℤ) ≤ LABEL := by norm_num [LABEL]
    nlinarith
  refine ⟨?_, ?_, ?_, ?_, ?_⟩
  · intro j
    have h0 := hInv.usage_eq j
    simp only [exclCount, refCount] at h0 ⊢
    rw [exclCountF_update, refCountF_update, ht, hxr j, hxe j]
    rcases eq_or_ne j i with hij | hij
    · subst hij
      rw [usageAdd_usage_same]
      have hw : wrap32 (s.ring.usage j + -1) = s.ring.usage j + -1 := by
        apply wrap32_id <;> unfold LABEL at hb <;> omega
      rw [hw]
      simp only [refC, exclC, eq_self_iff_true, if_true]
      linarith
    · rw [usageAdd_usage_ne _ _ hij]
      simp only [refC, exclC]
      rw [if_neg (Ne.symm hij)]
      linarith
  · intro j
    have h0 := hInv.excl_le j
    simp only [exclCount] at h0 ⊢
    rw [exclCountF_update, ht, hxe j]
    simp only [exclC]
    linarith
  · refine no_copy_update hInv.no_copy ?_ ?_
    · intro j h; rw [hxe j] at h; norm_num at h
    · intro j h; rw [hxc j] at h; norm_num at h
  · exact hInv.pub_lt
  · exact idxB_update hInv.idx_lt hxb

theorem inv_step_rpreinc {R : ℕ} {s : Sys n V} {t : Fin n} {sp : Bool}
    {i : ℕ} (hInv : Inv R s) (hn : n < 1073741824)
    (ht : s.threads t = .rpreinc i) :
    Inv R (stepThread R s t sp) := by
  have hstep : stepThread R s t sp =
      { ring := usageAdd s.ring i 1
        threads := Function.update s.threads t
          (if LABEL ≤ s.ring.usage i then .rabandon i else .rcopy i) } := by
    unfold stepThread; rw [ht]
  rw [hstep]
  have hb := usage_bounds hInv i
  have hidx : i < R := by
    have := hInv.idx_lt t
    rw [ht] at this
    exact this
  by_cases hub : LABEL ≤ s.ring.usage i
  · rw [if_pos hub]
    refine ⟨?_, ?_, ?_, ?_, ?_⟩
    · intro j
      have h0 := hInv.usage_eq j
      simp only [exclCount, refCount] at h0 ⊢
      rw [exclCountF_update, refCountF_update, ht]
      rcases eq_or_ne j i with hij | hij
      · subst hij
        rw [usageAdd_usage_same]
        have hw : wrap32 (s.ring.usage j + 1) = s.ring.usage j + 1 := by
          apply wrap32_id <;> unfold LABEL at hb <;> omega
        rw [hw]
        simp only [refC, exclC, eq_self_iff_true, if_true]
        linarith
      · rw [usageAdd_usage_ne _ _ hij]
        simp only [refC, exclC]
        rw [if_neg (Ne.symm hij)]
        linarith
    · intro j
      have h0 := hInv.excl_le j
      simp only [exclCount] at h0 ⊢
      rw [exclCountF_update, ht]
      simp only [exclC]
      linarith
    · refine no_copy_update hInv.no_copy ?_ ?_
      · intro j h; simp [exclC] at h
      · intro j h; simp [copyC] at h
    · exact hInv.pub_lt
    · exact idxB_update hInv.idx_lt hidx
  · rw [if_neg hub]
    refine ⟨?_, ?_, ?_, ?_, ?_⟩
    · intro j
      have h0 := hInv.usage_eq j
      simp only [exclCount, refCount] at h0 ⊢
      rw [exclCountF_update, refCountF_update, ht]
      rcases eq_or_ne j i with hij | hij
      · subst hij
        rw [usageAdd_usage_same]
        have hw : wrap32 (s.ring.usage j + 1) = s.ring.usage j + 1 := by
          apply wrap32_id <;> unfold LABEL at hb <;> omega
        rw [hw]
        simp only [refC, exclC, eq_self_iff_true, if_true]
        linarith
      · rw [usageAdd_usage_ne _ _ hij]
        simp only [refC, exclC]
        rw [if_neg (Ne.symm hij)]
        linarith
    · intro j
      have h0 := hInv.excl_le j
      simp only [exclCount] at h0 ⊢
      rw [exclCountF_update, ht]
      simp only [exclC]
      linarith
    · intro i0 t1 u h1 h2
      replace h1 : exclC (Function.update s.threads t (TState.rcopy i) t1) i0 = 1 := h1
      replace h2 : copyC (Function.update s.threads t (TState.rcopy i) u) i0 = 1 := h2
      rcases eq_or_ne t1 t with e1 | e1
      · rw [e1, Function.update_same] at h1
        simp [exclC] at h1
      · rw [Function.update_noteq e1] at h1
        rcases eq_or_ne u t with e2 | e2
        · rw [e2, Function.update_same] at h2
          simp only [copyC] at h2
          have hii : i = i0 := by
            by_contra hne
            rw [if_neg hne] at h2
            norm_num at h2
          subst hii
          exact hub (usage_ge_label hInv h1)
        · rw [Function.update_noteq e2] at h2
          exact hInv.no_copy i0 t1 u h1 h2
    · exact hInv.pub_lt
    · exact idxB_update hInv.idx_lt hidx

theorem inv_step_rabandon {R : ℕ} {s : Sys n V} {t : Fin n} {sp : Bool}
    {i : ℕ} (hInv : Inv R s) (hn : n < 1073741824)
    (ht : s.threads t = .rabandon i) :
    Inv R (stepThread R s t sp) := by
  have hstep : stepThread R s t sp =
      { ring := usageAdd s.ring i (-1)
        threads := Function.update s.threads t .rstart } := by
    unfold stepThread; rw [ht]
  rw [hstep]
  have hb := usage_bounds hInv i
  have hrt : refC (s.threads t) i = 1 := by rw [ht]; simp [refC]
  have hge : 1 ≤ s.ring.usage i := by
    have h0 := hInv.usage_eq i
    simp only [exclCount, refCount] at h0
    have h1 : refC (s.threads t) i ≤ refCountF s.threads i := refC_mem_le s.threads t i
    have h2 := exclCountF_nonneg s.threads i
    have hL : (0 : ℤ) ≤ LABEL := by norm_num [LABEL]
    nlinarith
  refine ⟨?_, ?_, ?_, ?_, ?_⟩
  · intro j
    have h0 := hInv.usage_eq j
    simp only [exclCount, refCount] at h0 ⊢
    rw [exclCountF_update, refCountF_update, ht]
    rcases eq_or_ne j i with hij | hij
    · subst hij
      rw [usageAdd_usage_same]
      have hw : wrap32 (s.ring.usage j + -1) = s.ring.usage j + -1 := by
        apply wrap32_id <;> unfold LABEL at hb <;> omega
      rw [hw]
      simp only [refC, exclC, eq_self_iff_true, if_true]
      linarith
    · rw [usageAdd_usage_ne _ _ hij]
      simp only [refC, exclC]
      rw [if_neg (Ne.symm hij)]
      linarith
  · intro j
    have h0 := hInv.excl_le j
    simp only [exclCount] at h0 ⊢
    rw [exclCountF_update, ht]
    simp only [exclC]
    linarith
  · refine no_copy_update hInv.no_copy ?_ ?_
    · intro j h; simp [exclC] at h
    · intro j h; simp [copyC] at h
  · exact hInv.pub_lt
  · exact idxB_update hInv.idx_lt trivial

theorem inv_step_rcopy {R : ℕ} {s : Sys n V} {t : Fin n} {sp : Bool}
    {i : ℕ} (hInv : Inv R s) (ht : s.threads t = .rcopy i) :
    Inv R (stepThread R s t sp) := by
  have hstep : stepThread R s t sp =
      { ring := s.ring
        threads := Function.update s.threads t (.rrelease i (s.ring.pointers i)) } := by
    unfold stepThread; rw [ht]
  rw [hstep]
  refine ⟨?_, ?_, ?_, ?_, ?_⟩
  · intro j
    have h0 := hInv.usage_eq j
    simp only [exclCount, refCount] at h0 ⊢
    rw [exclCountF_update, refCountF_update, ht]
    simp only [refC, exclC]
    linarith
  · intro j
    have h0 := hInv.excl_le j
    simp only [exclCount] at h0 ⊢
    rw [exclCountF_update, ht]
    simp only [exclC]
    linarith
  · refine no_copy_update hInv.no_copy ?_ ?_
    · intro j h; simp [exclC] at h
    · intro j h; simp [copyC] at h
  · exact hInv.pub_lt
  · refine idxB_update hInv.idx_lt ?_
    have := hInv.idx_lt t
    rw [ht] at this
    exact this

theorem inv_step_rrelease {R : ℕ} {s : Sys n V} {t : Fin n} {sp : Bool}
    {i : ℕ} {res : Option V} (hInv : Inv R s) (hn : n < 1073741824)
    (ht : s.threads t = .rrelease i res) :
    Inv R (stepThread R s t sp) := by
  have hstep : stepThread R s t sp =
      { ring := usageAdd s.ring i (-1)
        threads := Function.update s.threads t (.rdone res) } := by
    unfold stepThread; rw [ht]
  rw [hstep]
  have hb := usage_bounds hInv i
  have hrt : refC (s.threads t) i = 1 := by rw [ht]; simp [refC]
  have hge : 1 ≤ s.ring.usage i := by
    have h0 := hInv.usage_eq i
    simp only [exclCount, refCount] at h0
    have h1 : refC (s.threads t) i ≤ refCountF s.threads i := refC_mem_le s.threads t i
    have h2 := exclCountF_nonneg s.threads i
    have hL : (0 : ℤ) ≤ LABEL := by norm_num [LABEL]
    nlinarith
  refine ⟨?_, ?_, ?_, ?_, ?_⟩
  · intro j
    have h0 := hInv.usage_eq j
    simp only [exclCount, refCount] at h0 ⊢
    rw [exclCountF_update, refCountF_update, ht]
    rcases eq_or_ne j i with hij | hij
    · subst hij
      rw [usageAdd_usage_same]
      have hw : wrap32 (s.ring.usage j + -1) = s.ring.usage j + -1 := by
        apply wrap32_id <;> unfold LABEL at hb <;> omega
      rw [hw]
      simp only [refC, exclC, eq_self_iff_true, if_true]
      linarith
    · rw [usageAdd_usage_ne _ _ hij]
      simp only [refC, exclC]
      rw [if_neg (Ne.symm hij)]
      linarith
  · intro j
    have h0 := hInv.excl_le j
    simp only [exclCount] at h0 ⊢
    rw [exclCountF_update, ht]
    simp only [exclC]
    linarith
  · refine no_copy_update hInv.no_copy ?_ ?_
    · intro j h; simp [exclC] at h
    · intro j h; simp [copyC] at h
  · exact hInv.pub_lt
  · exact idxB_update hInv.idx_lt trivial

theorem inv_step_rstart {R : ℕ} {s : Sys n V} {t : Fin n} {sp : Bool}
    (hInv : Inv R s) (ht : s.threads t = .rstart) :
    Inv R (stepThread R s t sp) := by
  have hstep : stepThread R s t sp =
      { ring := s.ring
        threads := Function.update s.threads t (.rpreinc s.ring.published) } := by
    unfold stepThread; rw [ht]
  rw [hstep]
  refine ⟨?_, ?_, ?_, ?_, ?_⟩
  · intro j
    have h0 := hInv.usage_eq j
    simp only [exclCount, refCount] at h0 ⊢
    rw [exclCountF_update, refCountF_update, ht]
    simp only [refC, exclC]
    linarith
  · intro j
    have h0 := hInv.excl_le j
    simp only [exclCount] at h0 ⊢
    rw [exclCountF_update, ht]
    simp only [exclC]
    linarith
  · refine no_copy_update hInv.no_copy ?_ ?_
    · intro j h; simp [exclC] at h
    · intro j h; simp [copyC] at h
  · exact hInv.pub_lt
  · exact idxB_update hInv.idx_lt hInv.pub_lt

/-- Every scheduler step preserves the invariant (fewer than 2^30 threads,
so that no usage counter can reach the 32-bit wrap-around). -/
theorem inv_step {R : ℕ} {s : Sys n V} (hInv : Inv R s) (hn : n < 1073741824)
    (t : Fin n) (sp : Bool) : Inv R (stepThread R s t sp) := by
  cases ht : s.threads t with
  | wstart l v => exact inv_step_wstart hInv ht
  | wpreinc l v i => exact inv_step_wpreinc hInv hn ht
  | wprecheck l v i => exact inv_step_wprecheck hInv ht
  | wprecas l v i => exact inv_step_wprecas hInv ht
  | wabandon l v i => exact inv_step_wabandon hInv hn ht
  | wprewrite l v i => exact inv_step_wprewrite hInv ht
  | wpredowngrade l v i => exact inv_step_wpredowngrade hInv hn ht
  | wprepublish l v i => exact inv_step_wprepublish hInv ht
  | wprerelease l v i => exact inv_step_wprerelease hInv hn ht
  | wdone =>
    have hs : stepThread R s t sp = s := by unfold stepThread; rw [ht]
    rw [hs]; exact hInv
  | rstart => exact inv_step_rstart hInv ht
  | rpreinc i => exact inv_step_rpreinc hInv hn ht
  | rabandon i => exact inv_step_rabandon hInv hn ht
  | rcopy i => exact inv_step_rcopy hInv ht
  | rrelease i res => exact inv_step_rrelease hInv hn ht
  | rdone res =>
    have hs : stepThread R s t sp = s := by unfold stepThread; rw [ht]
    rw [hs]; exact hInv

/-- The invariant is preserved by any finite schedule. -/
theorem inv_run {R : ℕ} (hn : n < 1073741824) (sched : List (Fin n × Bool)) :
    ∀ s : Sys n V, Inv R s → Inv R (run R s sched) := by
  induction sched with
  | nil => intro s h; exact h
  | cons p l ih =>
    intro s h
    obtain ⟨t, b⟩ := p
    exact ih _ (inv_step h hn t b)

/-- The initial system satisfies the invariant. -/
theorem inv_init {R : ℕ} (hR : 0 < R) (p : V) (tasks : Fin n → Job V) :
    Inv R (initSys R p tasks) := by
  have hz : ∀ j, refCountF (fun t => initTState (tasks t)) j = 0 :=
    fun j => Finset.sum_eq_zero (fun u _ => by
      rcases htu : tasks u with ⟨l, v⟩ | _ <;> simp [initTState, refC, htu])
  have he : ∀ j, exclCountF (fun t => initTState (tasks t)) j = 0 :=
    fun j => Finset.sum_eq_zero (fun u _ => by
      rcases htu : tasks u with ⟨l, v⟩ | _ <;> simp [initTState, exclC, htu])
  refine ⟨?_, ?_, ?_, ?_, ?_⟩
  · intro j
    show (0 : ℤ) = LABEL * exclCount (initSys R p tasks) j + refCount (initSys R p tasks) j
    have h1 : exclCount (initSys R p tasks) j = 0 := he j
    have h2 : refCount (initSys R p tasks) j = 0 := hz j
    rw [h1, h2]
    norm_num
  · intro j
    have h1 : exclCount (initSys R p tasks) j = 0 := he j
    rw [h1]
    norm_num
  · intro i t u h1 h2
    replace h1 : exclC (initTState (tasks t)) i = 1 := h1
    rcases htt : tasks t with ⟨l, v⟩ | _ <;> simp [initTState, exclC, htt] at h1
  · exact hR
  · intro u
    show idxB R (initTState (tasks u))
    rcases htu : tasks u with ⟨l, v⟩ | _ <;> simp [initTState, idxB, htu]

/-- Reachable states: the result of running a finite schedule from an
initial system. -/
theorem inv_reachable {R : ℕ} (hR : 0 < R) (hn : n < 1073741824) (p : V)
    (tasks : Fin n → Job V) (sched : List (Fin n × Bool)) :
    Inv R (run R (initSys R p tasks) sched) :=
  inv_run hn sched _ (inv_init hR p tasks)

/-! ### Sequential behaviour of the two member functions -/

@[simp] theorem usageAdd_usage_eq (r : RingState V) (i : ℕ) (d : ℤ) :
    (usageAdd r i d).usage = Function.update r.usage i (wrap32 (r.usage i + d)) := rfl

@[simp] theorem casStore_usage_eq (r : RingState V) (i : ℕ) :
    (casStore r i).usage = Function.update r.usage i (LABEL + 1) := rfl

theorem usageAdd_usageAdd (r : RingState V) (i : ℕ) (d e : ℤ) :
    usageAdd (usageAdd r i d) i e = usageAdd r i (d + e) := by
  unfold usageAdd
  ext x
  · rfl
  · show Function.update (Function.update r.usage i (wrap32 (r.usage i + d))) i
        (wrap32 (Function.update r.usage i (wrap32 (r.usage i + d)) i + e)) x =
      Function.update r.usage i (wrap32 (r.usage i + (d + e))) x
    rw [Function.update_same, Function.update_idem, wrap32_wrap32_add, add_assoc]
  · rfl
  · rfl

theorem usageAdd_zero (r : RingState V) (i : ℕ)
    (h1 : -2147483648 ≤ r.usage i) (h2 : r.usage i < 2147483648) :
    usageAdd r i 0 = r := by
  unfold usageAdd
  ext x
  · rfl
  · show Function.update r.usage i (wrap32 (r.usage i + 0)) x = r.usage x
    rw [add_zero, wrap32_id h1 h2, Function.update_eq_self]
  · rfl
  · rfl

theorem usageAdd_cancel (r : RingState V) (i : ℕ)
    (h1 : -2147483648 ≤ r.usage i) (h2 : r.usage i < 2147483648) :
    usageAdd (usageAdd r i 1) i (-1) = r := by
  rw [usageAdd_usageAdd]
  norm_num
  exact usageAdd_zero r i h1 h2

/-- The iteration of operator= that hits the published slot (line 53):
it abandons the candidate and only the advanced write cursor remains. -/
theorem assignIter_abandon {R : ℕ} (r : RingState V) (v : V)
    (hpub : idxOfCursor R r.cursor = r.published)
    (h1 : -2147483648 ≤ r.usage (idxOfCursor R r.cursor))
    (h2 : r.usage (idxOfCursor R r.cursor) < 2147483648) :
    assignIter R r v = ({ r with cursor := wrap32 (r.cursor + 1) }, false) := by
  unfold assignIter
  simp only [usageAdd_published]
  rw [if_pos hpub, usageAdd_cancel]
  · exact h1
  · exact h2

/-- The iteration of operator= on a free unpublished slot: the CAS
succeeds, the handle is overwritten, the slot is published and all usage
counters end exactly as they started. -/
theorem assignIter_success {R : ℕ} (r : RingState V) (v : V)
    (hne : idxOfCursor R r.cursor ≠ r.published)
    (hz : r.usage (idxOfCursor R r.cursor) = 0) :
    assignIter R r v =
      ({ pointers := Function.update r.pointers (idxOfCursor R r.cursor) (some v)
         usage := r.usage
         published := idxOfCursor R r.cursor
         cursor := wrap32 (r.cursor + 1) }, true) := by
  unfold assignIter
  simp only [usageAdd_published]
  rw [if_neg hne]
  have hone : (usageAdd { r with cursor := wrap32 (r.cursor + 1) }
      (idxOfCursor R r.cursor) 1).usage (idxOfCursor R r.cursor) = 1 := by
    rw [usageAdd_usage_same]
    show wrap32 (r.usage (idxOfCursor R r.cursor) + 1) = 1
    rw [hz]
    norm_num [wrap32]
  rw [if_pos hone]
  refine Prod.ext ?_ rfl
  ext x
  · simp [usageAdd, casStore]
  · simp only [usageAdd_usage_eq, casStore_usage_eq, Function.update_idem,
      Function.update_same]
    have hval : wrap32 (wrap32 (LABEL + 1 + -LABEL) + -1) = 0 := by
      norm_num [wrap32, LABEL]
    rw [hval, ← hz, Function.update_eq_self]
  · simp [usageAdd, casStore]
  · simp [usageAdd, casStore]

/-- The iteration of operator= whose weak CAS observes a counter other
than 1 (another thread holds a reference): the candidate is abandoned. -/
theorem assignIter_casfail {R : ℕ} (r : RingState V) (v : V)
    (hne : idxOfCursor R r.cursor ≠ r.published)
    (hnz : r.usage (idxOfCursor R r.cursor) ≠ 0)
    (h1 : -2147483648 ≤ r.usage (idxOfCursor R r.cursor))
    (h2 : r.usage (idxOfCursor R r.cursor) < 2147483647) :
    assignIter R r v = ({ r with cursor := wrap32 (r.cursor + 1) }, false) := by
  unfold assignIter
  simp only [usageAdd_published]
  rw [if_neg hne]
  have hone : (usageAdd { r with cursor := wrap32 (r.cursor + 1) }
      (idxOfCursor R r.cursor) 1).usage (idxOfCursor R r.cursor) ≠ 1 := by
    rw [usageAdd_usage_same]
    show wrap32 (r.usage (idxOfCursor R r.cursor) + 1) ≠ 1
    have : wrap32 (r.usage (idxOfCursor R r.cursor) + 1) =
        r.usage (idxOfCursor R r.cursor) + 1 := by
      apply wrap32_id <;> omega
    omega
  rw [if_neg hone, usageAdd_cancel]
  · exact h1
  · exact lt_trans h2 (by norm_num)

/-- Consecutive write-cursor candidates are distinct slots (ring size at
least 2 dividing 2^32). -/
theorem idxOfCursor_succ_ne {R : ℕ} (hR2 : 2 ≤ R) (hdvd : (R : ℤ) ∣ 4294967296)
    (c : ℤ) : idxOfCursor R (c + 1) ≠ idxOfCursor R c := by
  have h64 : (R : ℤ) ∣ 18446744073709551616 := hdvd.trans (by norm_num)
  rw [idxOfCursor_eq h64, idxOfCursor_eq h64]
  intro h
  have hR0 : (R : ℤ) ≠ 0 := by
    have : R ≠ 0 := by omega
    exact_mod_cast this
  have n1 : 0 ≤ (c + 1) % (R : ℤ) := Int.emod_nonneg _ hR0
  have n2 : 0 ≤ c % (R : ℤ) := Int.emod_nonneg _ hR0
  have h1 : (c + 1) % (R : ℤ) = c % (R : ℤ) := by omega
  have hsub : (c + 1 - c) % (R : ℤ) = 0 :=
    Int.emod_eq_emod_iff_emod_sub_eq_zero.mp h1
  have hone : (1 : ℤ) % (R : ℤ) = 0 := by
    have : c + 1 - c = 1 := by ring
    rwa [this] at hsub
  have hdvd1 : (R : ℤ) ∣ 1 := Int.dvd_of_emod_eq_zero hone
  have := Int.le_of_dvd one_pos hdvd1
  have hcast : (2 : ℤ) ≤ (R : ℤ) := by exact_mod_cast hR2
  omega

/-- The iteration of the read path when the observed counter is below the
sentinel: the published slot's handle is returned and the ring is left
exactly as found. -/
theorem loadIter_lt (r : RingState V)
    (h : r.usage r.published < LABEL)
    (h1 : -2147483648 ≤ r.usage r.published)
    (h2 : r.usage r.published < 2147483648) :
    loadIter r = (some (r.pointers r.published), r) := by
  unfold loadIter
  rw [if_neg (by omega : ¬ LABEL ≤ r.usage r.published)]
  rw [usageAdd_cancel r r.published h1 h2]
  rfl

/-- The iteration of the read path that observes the sentinel: retry with
the ring left exactly as found. -/
theorem loadIter_ge (r : RingState V)
    (h : LABEL ≤ r.usage r.published)
    (h1 : -2147483648 ≤ r.usage r.published)
    (h2 : r.usage r.published < 2147483648) :
    loadIter r = (none, r) := by
  unfold loadIter
  rw [if_pos h]
  rw [usageAdd_cancel r r.published h1 h2]

/-- A completed load call returns the published slot's handle and leaves
the whole ring exactly as it found it. -/
theorem loadLoop_frame {r : RingState V}
    (hrange : -2147483648 ≤ r.usage r.published ∧ r.usage r.published < 2147483648) :
    ∀ {fuel : ℕ} {res : Option V} {r2 : RingState V},
    loadLoop fuel r = some (res, r2) →
    r2 = r ∧ res = r.pointers r.published := by
  intro fuel
  induction fuel with
  | zero => intro res r2 h; simp [loadLoop] at h
  | succ fuel ih =>
    intro res r2 h
    by_cases hc : LABEL ≤ r.usage r.published
    · rw [loadLoop, loadIter_ge r hc hrange.1 hrange.2] at h
      exact ih h
    · rw [loadLoop, loadIter_lt r (by omega) hrange.1 hrange.2] at h
      simp at h
      exact ⟨h.2.symm, h.1.symm⟩

/-- Unfolding equation of the writer loop when the iteration abandons. -/
theorem assignLoop_succ_false {R : ℕ} {v : V} {fuel : ℕ} {r r1 : RingState V}
    (hit : assignIter R r v = (r1, false)) :
    assignLoop R v (fuel + 1) r = assignLoop R v fuel r1 := by
  show (match assignIter R r v with
    | (r2, true) => some r2
    | (r2, false) => assignLoop R v fuel r2) = _
  rw [hit]

/-- Unfolding equation of the writer loop when the iteration publishes. -/
theorem assignLoop_succ_true {R : ℕ} {v : V} {fuel : ℕ} {r r1 : RingState V}
    (hit : assignIter R r v = (r1, true)) :
    assignLoop R v (fuel + 1) r = some r1 := by
  show (match assignIter R r v with
    | (r2, true) => some r2
    | (r2, false) => assignLoop R v fuel r2) = _
  rw [hit]

/-- With no concurrency and all usage counters 0, an assign call
terminates within two loop iterations, stores the value in the slot it
publishes, and leaves every usage counter at 0. -/
theorem assignLoop_two {R : ℕ} (v : V) (r : RingState V)
    (hR2 : 2 ≤ R) (hdvd : (R : ℤ) ∣ 4294967296)
    (hu : ∀ j, r.usage j = 0) :
    ∃ r2, assignLoop R v 2 r = some r2 ∧
      r2.usage = r.usage ∧
      r2.pointers = Function.update r.pointers r2.published (some v) ∧
      r2.published < R := by
  have hR : 0 < R := by omega
  by_cases hpub : idxOfCursor R r.cursor = r.published
  · have hit1 := assignIter_abandon r v hpub
      (by rw [hu]; norm_num) (by rw [hu]; norm_num)
    have hne2 : idxOfCursor R ({ r with cursor := wrap32 (r.cursor + 1)} :
        RingState V).cursor ≠ ({ r with cursor := wrap32 (r.cursor + 1)} :
        RingState V).published := by
      show idxOfCursor R (wrap32 (r.cursor + 1)) ≠ r.published
      rw [idxOfCursor_wrap32 hdvd, ← hpub]
      exact idxOfCursor_succ_ne hR2 hdvd r.cursor
    have hit2 := assignIter_success { r with cursor := wrap32 (r.cursor + 1)} v hne2
      (hu _)
    have heq : assignLoop R v 2 r = some
        { pointers := Function.update r.pointers
            (idxOfCursor R (wrap32 (r.cursor + 1))) (some v)
          usage := r.usage
          published := idxOfCursor R (wrap32 (r.cursor + 1))
          cursor := wrap32 (wrap32 (r.cursor + 1) + 1) } := by
      show assignLoop R v (1 + 1) r = _
      rw [assignLoop_succ_false hit1, assignLoop_succ_true hit2]
    exact ⟨_, heq, rfl, rfl, idxOfCursor_lt hR _⟩
  · have hit := assignIter_success r v hpub (hu _)
    have heq : assignLoop R v 2 r = some
        { pointers := Function.update r.pointers (idxOfCursor R r.cursor) (some v)
          usage := r.usage
          published := idxOfCursor R r.cursor
          cursor := wrap32 (r.cursor + 1) } := by
      show assignLoop R v (1 + 1) r = _
      rw [assignLoop_succ_true hit]
    exact ⟨_, heq, rfl, rfl, idxOfCursor_lt hR _⟩

/-- With its spurious bit false, an iteration of the weak-CAS writer loop
is exactly the strong-CAS iteration. -/
theorem assignIterW_false (R : ℕ) (r : RingState V) (v : V) :
    assignIterW R r v false = assignIter R r v := by
  unfold assignIterW assignIter
  simp

/-- With its spurious bit true, an iteration of the writer loop always
abandons: the weak CAS fails even when the compared counter is 1, and
only the increment-decrement pair and the advanced cursor remain. -/
theorem assignIterW_true (R : ℕ) (r : RingState V) (v : V) :
    assignIterW R r v true =
      (usageAdd (usageAdd { r with cursor := wrap32 (r.cursor + 1) }
        (idxOfCursor R r.cursor) 1) (idxOfCursor R r.cursor) (-1), false) := by
  unfold assignIterW
  simp

/-- Unfolding equation of the weak-CAS writer loop when the iteration
abandons. -/
theorem assignLoopW_cons_false {R : ℕ} {v : V} {sp : Bool} {sps : List Bool}
    {r r1 : RingState V} (hit : assignIterW R r v sp = (r1, false)) :
    assignLoopW R v (sp :: sps) r = assignLoopW R v sps r1 := by
  show (match assignIterW R r v sp with
    | (r2, true) => some r2
    | (r2, false) => assignLoopW R v sps r2) = _
  rw [hit]

/-- Unfolding equation of the weak-CAS writer loop when the iteration
publishes. -/
theorem assignLoopW_cons_true {R : ℕ} {v : V} {sp : Bool} {sps : List Bool}
    {r r1 : RingState V} (hit : assignIterW R r v sp = (r1, true)) :
    assignLoopW R v (sp :: sps) r = some r1 := by
  show (match assignIterW R r v sp with
    | (r2, true) => some r2
    | (r2, false) => assignLoopW R v sps r2) = _
  rw [hit]

/-- With every spurious bit false the weak-CAS loop coincides with the
strong-CAS loop on the same fuel. -/
theorem assignLoopW_false (R : ℕ) (v : V) :
    ∀ (fuel : ℕ) (r : RingState V),
    assignLoopW R v (List.replicate fuel false) r = assignLoop R v fuel r := by
  intro fuel
  induction fuel with
  | zero => intro r; rfl
  | succ fuel ih =>
    intro r
    rw [List.replicate_succ]
    rcases hit : assignIter R r v with ⟨r2, b⟩
    have hitW : assignIterW R r v false = (r2, b) := by
      rw [assignIterW_false, hit]
    cases b
    · rw [assignLoopW_cons_false hitW, assignLoop_succ_false hit, ih]
    · rw [assignLoopW_cons_true hitW, assignLoop_succ_true hit]

/-- Under adversarial spurious failures every iteration of a solo assign
abandons, so the loop never returns however many iterations it is
allowed to start. -/
theorem assignLoopW_spurious {R : ℕ} (v : V) :
    ∀ (k : ℕ) (r : RingState V),
    assignLoopW R v (List.replicate k true) r = none := by
  intro k
  induction k with
  | zero => intro r; rfl
  | succ k ih =>
    intro r
    rw [List.replicate_succ, assignLoopW_cons_false (assignIterW_true R r v), ih]

/-- A completed assign call leaves every usage counter exactly as it
found it, through any number of abandoned iterations. -/
theorem assignLoop_usage {R : ℕ} (v : V) :
    ∀ (fuel : ℕ) (r r2 : RingState V),
    (∀ j, -2147483648 ≤ r.usage j ∧ r.usage j < 2147483647) →
    assignLoop R v fuel r = some r2 → r2.usage = r.usage := by
  intro fuel
  induction fuel with
  | zero => intro r r2 _ h; simp [assignLoop] at h
  | succ fuel ih =>
    intro r r2 hrange h
    by_cases hpub : idxOfCursor R r.cursor = r.published
    · have hit := assignIter_abandon r v hpub (hrange _).1
        (lt_trans (hrange _).2 (by norm_num))
      rw [assignLoop_succ_false hit] at h
      exact ih { r with cursor := wrap32 (r.cursor + 1) } r2 (fun j => hrange j) h
    · by_cases hz : r.usage (idxOfCursor R r.cursor) = 0
      · have hit := assignIter_success r v hpub hz
        rw [assignLoop_succ_true hit] at h
        have h2 := Option.some.inj h
        rw [← h2]
      · have hit := assignIter_casfail r v hpub hz (hrange _).1 (hrange _).2
        rw [assignLoop_succ_false hit] at h
        exact ih { r with cursor := wrap32 (r.cursor + 1) } r2 (fun j => hrange j) h

/-- Subtracting the sentinel at the end of the exclusive window restores
the writer's own holding to exactly 1 when it was sole holder. -/
theorem downgrade_restores (r : RingState V) (i : ℕ) (h : r.usage i = LABEL + 1) :
    (usageAdd r i (-LABEL)).usage i = 1 := by
  rw [usageAdd_usage_same, h]
  norm_num [wrap32, LABEL]

/-- Every abandoned iteration of the writer loop leaves every usage
counter (and the stored handles and the published index) unchanged. -/
theorem assignIter_false_frame {R : ℕ} (r : RingState V) (v : V)
    (hrange : ∀ j, -2147483648 ≤ r.usage j ∧ r.usage j < 2147483647)
    (hfalse : (assignIter R r v).2 = false) :
    (assignIter R r v).1 = { r with cursor := wrap32 (r.cursor + 1) } := by
  by_cases hpub : idxOfCursor R r.cursor = r.published
  · rw [assignIter_abandon r v hpub (hrange _).1
      (lt_trans (hrange _).2 (by norm_num))]
  · by_cases hz : r.usage (idxOfCursor R r.cursor) = 0
    · rw [assignIter_success r v hpub hz] at hfalse
      simp at hfalse
    · rw [assignIter_casfail r v hpub hz (hrange _).1 (hrange _).2]

/-- A load on a ring whose published slot has a sub-sentinel usage
counter returns the published handle in one iteration, ring unchanged. -/
theorem loadLoop_one (r : RingState V)
    (h : r.usage r.published < LABEL)
    (h1 : -2147483648 ≤ r.usage r.published)
    (h2 : r.usage r.published < 2147483648) :
    loadLoop 1 r = some (r.pointers r.published, r) := by
  show (match loadIter r with
    | (some res, r2) => some (res, r2)
    | (none, r2) => loadLoop 0 r2) = _
  rw [loadIter_lt r h h1 h2]

/-- Running an appended schedule runs the two parts in sequence. -/
theorem run_append {R : ℕ} (l1 l2 : List (Fin n × Bool)) :
    ∀ s : Sys n V, run R s (l1 ++ l2) = run R (run R s l1) l2 := by
  induction l1 with
  | nil => intro s; rfl
  | cons p l ih =>
    intro s
    obtain ⟨t, b⟩ := p
    show run R (stepThread R s t b) (l ++ l2) = _
    rw [ih]
    rfl

/-- Counting started iterations splits over schedule concatenation. -/
theorem countFetches_append {R : ℕ} (l1 l2 : List (Fin n × Bool)) (t : Fin n) :
    ∀ s : Sys n V,
    countFetches R s (l1 ++ l2) t =
      countFetches R s l1 t + countFetches R (run R s l1) l2 t := by
  induction l1 with
  | nil =>
    intro s
    show countFetches R s l2 t = 0 + countFetches R s l2 t
    rw [zero_add]
  | cons p l ih =>
    intro s
    obtain ⟨u, b⟩ := p
    show (if u = t ∧ isStart (s.threads t) then 1 else 0) +
        countFetches R (stepThread R s u b) (l ++ l2) t = _
    rw [ih]
    show _ = (if u = t ∧ isStart (s.threads t) then 1 else 0) +
        countFetches R (stepThread R s u b) l t +
        countFetches R (run R (stepThread R s u b) l) l2 t
    ring

theorem wrap32_one : wrap32 1 = 1 := by norm_num [wrap32]

theorem wrap32_zero : wrap32 0 = 0 := by norm_num [wrap32]

theorem update_zero_fun (i : ℕ) :
    Function.update (fun _ => (0 : ℤ)) i 0 = fun _ => 0 :=
  Function.update_eq_self i (fun _ => (0 : ℤ))

theorem fin2_eq_one {u : Fin 2} (hu : u ≠ 0) : u = 1 := by
  apply Fin.ext
  have h1 := u.isLt
  have h2 : u.val ≠ 0 := fun h => hu (Fin.ext h)
  omega

theorem update_vec2_zero {α : Type} (A B X : α) :
    Function.update ![A, B] (0 : Fin 2) X = ![X, B] := by
  funext u
  by_cases hu : u = 0
  · subst hu
    rw [Function.update_same]
    rfl
  · rw [Function.update_noteq hu, fin2_eq_one hu]
    rfl

theorem update_vec2_one {α : Type} (A B X : α) :
    Function.update ![A, B] (1 : Fin 2) X = ![A, X] := by
  funext u
  by_cases hu : u = 0
  · subst hu
    rw [Function.update_noteq (by decide)]
    rfl
  · rw [fin2_eq_one hu, Function.update_same]
    rfl

theorem idxOfCursor_four_add (c : ℤ) (k : ℕ) :
    idxOfCursor 4 (c + k) = (idxOfCursor 4 c + k) % 4 := by
  rw [idxOfCursor_four, idxOfCursor_four]
  omega

theorem run_cons {R : ℕ} {n : ℕ} {V : Type} (s : Sys n V) (t : Fin n) (b : Bool)
    (l : List (Fin n × Bool)) :
    run R s ((t, b) :: l) = run R (stepThread R s t b) l := rfl

theorem run_nil {R : ℕ} {n : ℕ} {V : Type} (s : Sys n V) : run R s [] = s := rfl

set_option maxHeartbeats 1000000 in
theorem burn (a b : ℕ) (dA : ℕ) (ptrs : ℕ → Option ℕ) (p : ℕ) (c : ℤ)
    (hne : p ≠ idxOfCursor 4 c) :
    run 4 ⟨⟨ptrs, fun _ => 0, p, c⟩, ![.wpreinc false a dA, .wstart true b]⟩ oneAssign1 =
      ⟨⟨Function.update ptrs (idxOfCursor 4 c) (some b), fun _ => 0,
        idxOfCursor 4 c, wrap32 (c + 1)⟩, ![.wpreinc false a dA, .wstart true b]⟩ := by
  simp only [oneAssign1, run, stepThread]
  simp [Matrix.cons_val_one, Matrix.head_cons, Function.update_same,
    Function.update_idem, hne, wrap32_one, wrap32_zero, update_zero_fun,
    Ne.symm hne]
  simp [usageAdd, RingState.mk.injEq, update_zero_fun, wrap32_zero,
    Function.update_same, Function.update_idem]

set_option maxHeartbeats 2000000 in
theorem roundLemma (c : ℤ) (ptrs : ℕ → Option ℕ) :
    ∃ ptrs2, run 4 (mkRound c ptrs) roundSched = mkRound (wrap32 (c + 5)) ptrs2 := by
  have hd : idxOfCursor 4 c < 4 := idxOfCursor_lt (by norm_num) c
  set d := idxOfCursor 4 c with hddef
  have e1 : idxOfCursor 4 (wrap32 (c + 1)) = (d + 1) % 4 := by
    rw [idxOfCursor_four_wrap32]
    have := idxOfCursor_four_add c 1
    simpa using this
  have e2 : idxOfCursor 4 (wrap32 (c + 2)) = (d + 2) % 4 := by
    rw [idxOfCursor_four_wrap32]
    have := idxOfCursor_four_add c 2
    simpa using this
  have e3 : idxOfCursor 4 (wrap32 (c + 3)) = (d + 3) % 4 := by
    rw [idxOfCursor_four_wrap32]
    have := idxOfCursor_four_add c 3
    simpa using this
  have e4 : idxOfCursor 4 (wrap32 (c + 4)) = (d + 4) % 4 := by
    rw [idxOfCursor_four_wrap32]
    have := idxOfCursor_four_add c 4
    simpa using this
  have e5 : idxOfCursor 4 (wrap32 (c + 5)) = (d + 5) % 4 := by
    rw [idxOfCursor_four_wrap32]
    have := idxOfCursor_four_add c 5
    simpa using this
  -- step 1: thread 0 fetches its cursor candidate d
  have h1 : stepThread 4 (mkRound c ptrs) 0 false =
      ⟨⟨ptrs, fun _ => 0, (d + 3) % 4, wrap32 (c + 1)⟩,
        ![.wpreinc false 11 d, .wstart true 22]⟩ := by
    simp [mkRound, stepThread, Matrix.cons_val_zero, Sys.mk.injEq,
      RingState.mk.injEq, update_vec2_zero]
  -- four complete assign calls by thread 1
  have hb1 := burn 11 22 d ptrs ((d + 3) % 4) (wrap32 (c + 1)) (by rw [e1]; omega)
  rw [e1, wrap32_wrap32_add, show (c + 1 + 1 : ℤ) = c + 2 from by ring] at hb1
  have hb2 := burn 11 22 d (Function.update ptrs ((d + 1) % 4) (some 22))
    ((d + 1) % 4) (wrap32 (c + 2)) (by rw [e2]; omega)
  rw [e2, wrap32_wrap32_add, show (c + 2 + 1 : ℤ) = c + 3 from by ring] at hb2
  have hb3 := burn 11 22 d
    (Function.update (Function.update ptrs ((d + 1) % 4) (some 22)) ((d + 2) % 4) (some 22))
    ((d + 2) % 4) (wrap32 (c + 3)) (by rw [e3]; omega)
  rw [e3, wrap32_wrap32_add, show (c + 3 + 1 : ℤ) = c + 4 from by ring] at hb3
  have hb4 := burn 11 22 d
    (Function.update (Function.update (Function.update ptrs ((d + 1) % 4) (some 22))
      ((d + 2) % 4) (some 22)) ((d + 3) % 4) (some 22))
    ((d + 3) % 4) (wrap32 (c + 4)) (by rw [e4]; omega)
  rw [e4, wrap32_wrap32_add, show (c + 4 + 1 : ℤ) = c + 5 from by ring] at hb4
  set ptrs4 := Function.update (Function.update (Function.update (Function.update ptrs
    ((d + 1) % 4) (some 22)) ((d + 2) % 4) (some 22)) ((d + 3) % 4) (some 22))
    ((d + 4) % 4) (some 22) with hptrs4
  -- thread 0: increment, observe its candidate published, decrement
  have hA1 : stepThread 4
      (⟨⟨ptrs4, fun _ => 0, (d + 4) % 4, wrap32 (c + 5)⟩,
        ![.wpreinc false 11 d, .wstart true 22]⟩ : Sys 2 ℕ) 0 false =
      ⟨⟨ptrs4, Function.update (fun _ => (0:ℤ)) d 1, (d + 4) % 4, wrap32 (c + 5)⟩,
        ![.wprecheck false 11 d, .wstart true 22]⟩ := by
    simp [stepThread, usageAdd, Matrix.cons_val_zero, Sys.mk.injEq, RingState.mk.injEq,
      wrap32_one, update_vec2_zero]
  have hA2 : stepThread 4
      (⟨⟨ptrs4, Function.update (fun _ => (0:ℤ)) d 1, (d + 4) % 4, wrap32 (c + 5)⟩,
        ![.wprecheck false 11 d, .wstart true 22]⟩ : Sys 2 ℕ) 0 false =
      ⟨⟨ptrs4, Function.update (fun _ => (0:ℤ)) d 1, (d + 4) % 4, wrap32 (c + 5)⟩,
        ![.wabandon false 11 d, .wstart true 22]⟩ := by
    have hpd : (d + 4) % 4 = d := by omega
    simp [stepThread, Matrix.cons_val_zero, Sys.mk.injEq, RingState.mk.injEq, hpd,
      update_vec2_zero]
  have hA3 : stepThread 4
      (⟨⟨ptrs4, Function.update (fun _ => (0:ℤ)) d 1, (d + 4) % 4, wrap32 (c + 5)⟩,
        ![.wabandon false 11 d, .wstart true 22]⟩ : Sys 2 ℕ) 0 false =
      ⟨⟨ptrs4, fun _ => 0, (d + 4) % 4, wrap32 (c + 5)⟩,
        ![.wstart false 11, .wstart true 22]⟩ := by
    simp [stepThread, usageAdd, Matrix.cons_val_zero, Sys.mk.injEq, RingState.mk.injEq,
      Function.update_same, Function.update_idem, wrap32_zero, update_zero_fun,
      update_vec2_zero]
  -- assemble the round
  refine ⟨ptrs4, ?_⟩
  rw [show roundSched = ((0 : Fin 2), false) :: (oneAssign1 ++ (oneAssign1 ++
      (oneAssign1 ++ (oneAssign1 ++ [((0 : Fin 2), false), ((0 : Fin 2), false),
        ((0 : Fin 2), false)])))) from rfl]
  rw [run_cons, h1, run_append, hb1, run_append, hb2, run_append, hb3,
    run_append, hb4]
  rw [run_cons, hA1, run_cons, hA2, run_cons, hA3, run_nil]
  have hpub : ((idxOfCursor 4 (wrap32 (c + 5))) + 3) % 4 = (d + 4) % 4 := by
    rw [e5]; omega
  unfold mkRound
  rw [Sys.mk.injEq, RingState.mk.injEq]
  refine ⟨⟨rfl, rfl, hpub.symm, rfl⟩, rfl⟩


theorem countFetches_cons {R : ℕ} {n : ℕ} {V : Type} (s : Sys n V) (u t : Fin n)
    (b : Bool) (l : List (Fin n × Bool)) :
    countFetches R s ((u, b) :: l) t =
      (if u = t ∧ isStart (s.threads t) then 1 else 0) +
        countFetches R (stepThread R s u b) l t := rfl

theorem roundFetches_ge (c : ℤ) (ptrs : ℕ → Option ℕ) :
    1 ≤ countFetches 4 (mkRound c ptrs) roundSched 0 := by
  rw [show roundSched = ((0 : Fin 2), false) :: (oneAssign1 ++ (oneAssign1 ++
      (oneAssign1 ++ (oneAssign1 ++ [((0 : Fin 2), false), ((0 : Fin 2), false),
        ((0 : Fin 2), false)])))) from rfl]
  rw [countFetches_cons]
  have hst : isStart ((mkRound c ptrs).threads 0) = true := rfl
  rw [if_pos ⟨rfl, hst⟩]
  exact Nat.le_add_right 1 _

theorem cex2Init_eq :
    cex2Init = mkRound 1 (Function.update (fun _ => none) 0 (some 7)) := by
  unfold cex2Init initSys mkRound construct
  rw [Sys.mk.injEq, RingState.mk.injEq]
  refine ⟨⟨rfl, rfl, by decide, by norm_num⟩, ?_⟩
  funext u
  by_cases hu : u = 0
  · subst hu
    rfl
  · rw [fin2_eq_one hu]
    rfl

/-- After k starvation rounds the system is again in a round state and
thread 0 has started (and abandoned) k iterations of its single,
still-unfinished assign call. -/
theorem starvation (k : ℕ) :
    ∃ c ptrs, run 4 cex2Init (repSched k) = mkRound c ptrs ∧
      k ≤ countFetches 4 cex2Init (repSched k) 0 := by
  induction k with
  | zero =>
    exact ⟨1, _, by rw [show repSched 0 = [] from rfl, run_nil]; exact cex2Init_eq,
      Nat.zero_le _⟩
  | succ k ih =>
    obtain ⟨c, ptrs, hrun, hcount⟩ := ih
    obtain ⟨ptrs2, hround⟩ := roundLemma c ptrs
    refine ⟨wrap32 (c + 5), ptrs2, ?_, ?_⟩
    · rw [show repSched (k + 1) = repSched k ++ roundSched from rfl, run_append,
        hrun, hround]
    · rw [show repSched (k + 1) = repSched k ++ roundSched from rfl,
        countFetches_append, hrun]
      have h1 := roundFetches_ge c ptrs
      omega

/-- For every bound there is a schedule of the two-writer benchmark
system (one single-shot assign, one looping writer, ring size 4) under
which the single assign call has started more loop iterations than the
bound and has still not returned. -/
theorem unbounded_retries (B : ℕ) :
    ∃ sched : List (Fin 2 × Bool),
      B < countFetches 4 cex2Init sched 0 ∧
        (run 4 cex2Init sched).threads 0 ≠ .wdone := by
  obtain ⟨c, ptrs, hrun, hcount⟩ := starvation (B + 1)
  refine ⟨repSched (B + 1), by omega, ?_⟩
  rw [hrun]
  show (mkRound c ptrs).threads 0 ≠ .wdone
  simp [mkRound]

/-! ### Helper: which steps can change a stored handle -/

/-- Only a writer inside the exclusive window on slot i (program counter
at line 68) can change the handle stored in slot i. -/
theorem step_pointers_eq {R : ℕ} {s : Sys n V} {t : Fin n} {sp : Bool} (i : ℕ)
    (hnw : ∀ l v, s.threads t ≠ .wprewrite l v i) :
    (stepThread R s t sp).ring.pointers i = s.ring.pointers i := by
  cases ht : s.threads t with
  | wstart l v => unfold stepThread; rw [ht]
  | wpreinc l v j => unfold stepThread; rw [ht]; rfl
  | wprecheck l v j => unfold stepThread; rw [ht]
  | wprecas l v j =>
    have hstep : stepThread R s t sp =
        if s.ring.usage j = 1 ∧ sp = false then
          { ring := casStore s.ring j,
            threads := Function.update s.threads t (.wprewrite l v j) }
        else
          { ring := s.ring,
            threads := Function.update s.threads t (.wabandon l v j) } := by
      unfold stepThread; rw [ht]
    rw [hstep]
    by_cases hc : s.ring.usage j = 1 ∧ sp = false
    · rw [if_pos hc]; rfl
    · rw [if_neg hc]
  | wabandon l v j => unfold stepThread; rw [ht]; rfl
  | wprewrite l v j =>
    have hji : i ≠ j := by
      intro h
      exact hnw l v (by rw [ht, h])
    unfold stepThread; rw [ht]
    show Function.update s.ring.pointers j (some v) i = s.ring.pointers i
    rw [Function.update_noteq hji]
  | wpredowngrade l v j => unfold stepThread; rw [ht]; rfl
  | wprepublish l v j => unfold stepThread; rw [ht]
  | wprerelease l v j => unfold stepThread; rw [ht]; rfl
  | wdone => unfold stepThread; rw [ht]
  | rstart => unfold stepThread; rw [ht]
  | rpreinc j => unfold stepThread; rw [ht]; rfl
  | rabandon j => unfold stepThread; rw [ht]; rfl
  | rcopy j => unfold stepThread; rw [ht]
  | rrelease j res => unfold stepThread; rw [ht]; rfl
  | rdone res => unfold stepThread; rw [ht]

/-! ### The claims -/

/-- C1: Sequential freshness: when an assign(v) runs with no other
operation interleaved (all usage counters 0), it completes within the
fuel of two iterations and a load() run after it (again with no
concurrency) returns exactly v; in particular, with ring size 4 and one
writer assigning 1,2,3,4,5 in order from a freshly constructed ring, a
load() after the last assign yields 5. -/
theorem c1_seq_freshness (R : ℕ) {V : Type} (r : RingState V) (v : V)
    (hR2 : 2 ≤ R) (hdvd : (R : ℤ) ∣ 4294967296)
    (hu : ∀ j, r.usage j = 0) :
    (∃ r2, assignLoop R v 2 r = some r2 ∧ loadLoop 1 r2 = some (some v, r2)) ∧
      scnFive = some (some 5) := by
  obtain ⟨r2, hloop, husage, hptr, hpub⟩ := assignLoop_two v r hR2 hdvd hu
  have hz : r2.usage r2.published = 0 := by rw [husage, hu]
  have hl := loadLoop_one r2 (by rw [hz]; norm_num [LABEL]) (by rw [hz]; norm_num)
    (by rw [hz]; norm_num)
  have hv : r2.pointers r2.published = some v := by
    rw [hptr, Function.update_same]
  refine ⟨⟨r2, hloop, ?_⟩, by decide⟩
  rw [hl, hv]

/-- C1 witness: the theorem applied to a freshly constructed ring of
size 4 with value 5. -/
theorem c1_witness :
    (2 ≤ 4 ∧ ((4 : ℕ) : ℤ) ∣ 4294967296 ∧ ∀ j, (construct 4 (0 : ℕ)).usage j = 0) ∧
    ((∃ r2, assignLoop 4 5 2 (construct 4 (0 : ℕ)) = some r2 ∧
        loadLoop 1 r2 = some (some 5, r2)) ∧
      scnFive = some (some 5)) :=
  ⟨⟨by norm_num, by norm_num, fun _ => rfl⟩,
    c1_seq_freshness 4 (construct 4 0) 5 (by norm_num) (by norm_num) (fun _ => rfl)⟩

/-- C5: the read path follows the specified loop: read the published
index, atomically increment that slot's usage observing the pre-increment
value, retry from the index read when the pre-value is at least the
sentinel (after decrementing), otherwise copy the slot's handle into the
local result, decrement, and return the copy. -/
theorem c5_read_path (R : ℕ) (s : Sys n V) (t : Fin n) (sp : Bool) :
    (s.threads t = .rstart → stepThread R s t sp =
      { ring := s.ring,
        threads := Function.update s.threads t (.rpreinc s.ring.published) }) ∧
    (∀ i, s.threads t = .rpreinc i → stepThread R s t sp =
      { ring := usageAdd s.ring i 1,
        threads := Function.update s.threads t
          (if LABEL ≤ s.ring.usage i then .rabandon i else .rcopy i) }) ∧
    (∀ i, s.threads t = .rabandon i → stepThread R s t sp =
      { ring := usageAdd s.ring i (-1),
        threads := Function.update s.threads t .rstart }) ∧
    (∀ i, s.threads t = .rcopy i → stepThread R s t sp =
      { ring := s.ring,
        threads := Function.update s.threads t (.rrelease i (s.ring.pointers i)) }) ∧
    (∀ i res, s.threads t = .rrelease i res → stepThread R s t sp =
      { ring := usageAdd s.ring i (-1),
        threads := Function.update s.threads t (.rdone res) }) := by
  refine ⟨?_, ?_, ?_, ?_, ?_⟩
  · intro h; unfold stepThread; rw [h]
  · intro i h; unfold stepThread; rw [h]
  · intro i h; unfold stepThread; rw [h]
  · intro i h; unfold stepThread; rw [h]
  · intro i res h; unfold stepThread; rw [h]

/-- C5 witness: the first and second reader steps on a freshly
constructed ring of size 4. -/
theorem c5_witness :
    ((⟨construct 4 (7 : ℕ), fun _ => TState.rstart⟩ : Sys 1 ℕ).threads 0 =
        TState.rstart) ∧
    stepThread 4 (⟨construct 4 (7 : ℕ), fun _ => TState.rstart⟩ : Sys 1 ℕ) 0 false =
      { ring := (construct 4 (7 : ℕ)),
        threads := Function.update
          (fun _ => (TState.rstart : TState ℕ)) 0 (.rpreinc (construct 4 (7 : ℕ)).published) } :=
  ⟨rfl, (c5_read_path 4 _ 0 false).1 rfl⟩

/-- C7: usage bookkeeping balances: the downgrade that subtracts the
sentinel restores the writer's sole holding to exactly 1; every completed
assign call, through any abandoned iterations, leaves every usage counter
exactly as it found it; every abandoned iteration on its own leaves every
usage counter unchanged; and starting from all-zero counters (no
concurrency) the counters are all 0 again after the call. -/
theorem c7_usage_balance (R : ℕ) {V : Type} (v : V) :
    (∀ (r : RingState V) (i : ℕ), r.usage i = LABEL + 1 →
      (usageAdd r i (-LABEL)).usage i = 1) ∧
    (∀ (fuel : ℕ) (r r2 : RingState V),
      (∀ j, -2147483648 ≤ r.usage j ∧ r.usage j < 2147483647) →
      assignLoop R v fuel r = some r2 → ∀ j, r2.usage j = r.usage j) ∧
    (∀ r : RingState V,
      (∀ j, -2147483648 ≤ r.usage j ∧ r.usage j < 2147483647) →
      (assignIter R r v).2 = false → (assignIter R r v).1.usage = r.usage) ∧
    (∀ (fuel : ℕ) (r r2 : RingState V), (∀ j, r.usage j = 0) →
      assignLoop R v fuel r = some r2 → ∀ j, r2.usage j = 0) := by
  refine ⟨downgrade_restores, ?_, ?_, ?_⟩
  · intro fuel r r2 hrange h j
    rw [assignLoop_usage v fuel r r2 hrange h]
  · intro r hrange hfalse
    rw [assignIter_false_frame r v hrange hfalse]
  · intro fuel r r2 hu h j
    have hrange : ∀ j, -2147483648 ≤ r.usage j ∧ r.usage j < 2147483647 := by
      intro j; rw [hu]; norm_num
    rw [assignLoop_usage v fuel r r2 hrange h, hu]

/-- C7 witness: the downgrade conjunct at a concrete ring whose slot 1
carries the sentinel plus the writer's own holding, and the balance
conjunct on a complete assign from a fresh ring. -/
theorem c7_witness :
    ((⟨fun _ => none, fun _ => LABEL + 1, 0, 0⟩ : RingState ℕ).usage 1 = LABEL + 1 ∧
      (usageAdd (⟨fun _ => none, fun _ => LABEL + 1, 0, 0⟩ : RingState ℕ) 1
        (-LABEL)).usage 1 = 1) ∧
    (∀ j, (construct 4 (0 : ℕ)).usage j = 0) :=
  ⟨⟨rfl, (c7_usage_balance 4 (0 : ℕ)).1 _ 1 rfl⟩, fun _ => rfl⟩

/-- C9: construction stores the initial handle in slot 0, publishes index
0, leaves all usage counters 0, and a load before any assign returns the
initial handle, leaving the ring as constructed. -/
theorem c9_construct_load (R : ℕ) {V : Type} (p : V) :
    (construct R p).pointers 0 = some p ∧
    (construct R p).published = 0 ∧
    (∀ j, (construct R p).usage j = 0) ∧
    loadLoop 1 (construct R p) = some (some p, construct R p) := by
  refine ⟨by simp [construct], rfl, fun _ => rfl, ?_⟩
  have hl := loadLoop_one (construct R p) (by norm_num [construct, LABEL])
    (by norm_num [construct]) (by norm_num [construct])
  rw [hl]
  simp [construct]

/-- C10: the read path is observationally read-only: no reader step
changes any stored handle, the published index, or the write cursor; and
a completed load() call (its transient usage increment always matched by
the decrement) leaves the entire ring state exactly as it found it,
returning the published slot's handle. -/
theorem c10_load_readonly (R : ℕ) (s : Sys n V) (t : Fin n) (sp : Bool) :
    (readerPc (s.threads t) →
      (stepThread R s t sp).ring.pointers = s.ring.pointers ∧
      (stepThread R s t sp).ring.published = s.ring.published ∧
      (stepThread R s t sp).ring.cursor = s.ring.cursor) ∧
    (∀ (r : RingState V) (fuel : ℕ) (res : Option V) (r2 : RingState V),
      -2147483648 ≤ r.usage r.published → r.usage r.published < 2147483648 →
      loadLoop fuel r = some (res, r2) →
      r2 = r ∧ res = r.pointers r.published) := by
  constructor
  · intro h
    cases ht : s.threads t with
    | rstart =>
      have hstep : stepThread R s t sp =
          { ring := s.ring
            threads := Function.update s.threads t (.rpreinc s.ring.published) } := by
        unfold stepThread; rw [ht]
      rw [hstep]
      exact ⟨rfl, rfl, rfl⟩
    | rpreinc i =>
      have hstep : stepThread R s t sp =
          { ring := usageAdd s.ring i 1
            threads := Function.update s.threads t
              (if LABEL ≤ s.ring.usage i then .rabandon i else .rcopy i) } := by
        unfold stepThread; rw [ht]
      rw [hstep]
      exact ⟨rfl, rfl, rfl⟩
    | rabandon i =>
      have hstep : stepThread R s t sp =
          { ring := usageAdd s.ring i (-1)
            threads := Function.update s.threads t .rstart } := by
        unfold stepThread; rw [ht]
      rw [hstep]
      exact ⟨rfl, rfl, rfl⟩
    | rcopy i =>
      have hstep : stepThread R s t sp =
          { ring := s.ring
            threads := Function.update s.threads t (.rrelease i (s.ring.pointers i)) } := by
        unfold stepThread; rw [ht]
      rw [hstep]
      exact ⟨rfl, rfl, rfl⟩
    | rrelease i res =>
      have hstep : stepThread R s t sp =
          { ring := usageAdd s.ring i (-1)
            threads := Function.update s.threads t (.rdone res) } := by
        unfold stepThread; rw [ht]
      rw [hstep]
      exact ⟨rfl, rfl, rfl⟩
    | rdone res =>
      have hstep : stepThread R s t sp = s := by unfold stepThread; rw [ht]
      rw [hstep]
      exact ⟨rfl, rfl, rfl⟩
    | wstart l v => rw [ht] at h; exact h.elim
    | wpreinc l v i => rw [ht] at h; exact h.elim
    | wprecheck l v i => rw [ht] at h; exact h.elim
    | wprecas l v i => rw [ht] at h; exact h.elim
    | wabandon l v i => rw [ht] at h; exact h.elim
    | wprewrite l v i => rw [ht] at h; exact h.elim
    | wpredowngrade l v i => rw [ht] at h; exact h.elim
    | wprepublish l v i => rw [ht] at h; exact h.elim
    | wprerelease l v i => rw [ht] at h; exact h.elim
    | wdone => rw [ht] at h; exact h.elim
  · intro r fuel res r2 h1 h2 h
    exact loadLoop_frame ⟨h1, h2⟩ h

/-- C10 witness: a reader step on a fresh ring and a complete load from a
fresh ring of size 4 holding 7. -/
theorem c10_witness :
    (readerPc ((⟨construct 4 (7 : ℕ), fun _ => TState.rstart⟩ : Sys 1 ℕ).threads 0) ∧
      -2147483648 ≤ (construct 4 (7 : ℕ)).usage (construct 4 (7 : ℕ)).published ∧
      (construct 4 (7 : ℕ)).usage (construct 4 (7 : ℕ)).published < 2147483648 ∧
      loadLoop 1 (construct 4 (7 : ℕ)) = some (some 7, construct 4 (7 : ℕ))) ∧
    ((stepThread 4 (⟨construct 4 (7 : ℕ), fun _ => TState.rstart⟩ : Sys 1 ℕ) 0
        false).ring.pointers = (construct 4 (7 : ℕ)).pointers ∧
      construct 4 (7 : ℕ) = construct 4 (7 : ℕ) ∧
      (some 7 : Option ℕ) =
        (construct 4 (7 : ℕ)).pointers (construct 4 (7 : ℕ)).published) := by
  have hload : loadLoop 1 (construct 4 (7 : ℕ)) = some (some 7, construct 4 (7 : ℕ)) := by
    rw [loadLoop_one (construct 4 (7 : ℕ)) (by norm_num [construct, LABEL])
      (by norm_num [construct]) (by norm_num [construct])]
    simp [construct]
  have hmain := c10_load_readonly (n := 1) (V := ℕ) 4
    (⟨construct 4 (7 : ℕ), fun _ => TState.rstart⟩ : Sys 1 ℕ) 0 false
  refine ⟨⟨trivial, by norm_num [construct], by norm_num [construct], hload⟩, ?_, ?_, ?_⟩
  · exact (hmain.1 trivial).1
  · exact (hmain.2 (construct 4 (7 : ℕ)) 1 (some 7) (construct 4 (7 : ℕ))
      (by norm_num [construct]) (by norm_num [construct]) hload).1
  · exact (hmain.2 (construct 4 (7 : ℕ)) 1 (some 7) (construct 4 (7 : ℕ))
      (by norm_num [construct]) (by norm_num [construct]) hload).2

/-- C2: in every reachable state of the interleaving system, at most one
thread is in the exclusive-construction window of any slot; a slot whose
window is occupied has its usage counter at least the sentinel (so the
counter is never simultaneously in the shared regime for one thread and
the exclusive regime for another); and consequently no single step can
change the handle of a slot some reader is in the middle of copying. -/
theorem c2_exclusivity (n R : ℕ) {V : Type} (hn : n < 1073741824) (hR : 0 < R)
    (p : V) (tasks : Fin n → Job V) (sched : List (Fin n × Bool))
    (s : Sys n V) (hs : s = run R (initSys R p tasks) sched) :
    (∀ i (t u : Fin n), exclC (s.threads t) i = 1 → exclC (s.threads u) i = 1 →
      t = u) ∧
    (∀ i (t : Fin n), exclC (s.threads t) i = 1 → LABEL ≤ s.ring.usage i) ∧
    (∀ i (u t2 : Fin n) (sp : Bool), copyC (s.threads u) i = 1 →
      (stepThread R s t2 sp).ring.pointers i = s.ring.pointers i) := by
  subst hs
  have hInv := inv_reachable hR hn p tasks sched
  refine ⟨?_, ?_, ?_⟩
  · intro i t u h1 h2
    by_contra htu
    have hsum := hInv.excl_le i
    simp only [exclCount] at hsum
    have hpair := Finset.sum_le_sum_of_subset_of_nonneg
      (Finset.subset_univ ({t, u} : Finset (Fin n)))
      (fun x _ _ => exclC_nonneg ((run R (initSys R p tasks) sched).threads x) i)
    rw [Finset.sum_pair htu] at hpair
    rw [h1, h2] at hpair
    rw [exclCountF] at hsum
    linarith
  · intro i t h
    exact usage_ge_label hInv h
  · intro i u t2 sp hcopy
    apply step_pointers_eq
    intro l v hw
    have hexcl : exclC ((run R (initSys R p tasks) sched).threads t2) i = 1 := by
      rw [hw]; simp [exclC]
    exact hInv.no_copy i t2 u hexcl hcopy

/-- C2 witness: the theorem applied to one reader thread on a ring of
size 4 with the empty schedule. -/
theorem c2_witness :
    (1 < 1073741824 ∧ 0 < 4) ∧
    ((∀ i (t u : Fin 1),
        exclC ((run 4 (initSys 4 (0 : ℕ) (fun _ => (Job.reader : Job ℕ) : Fin 1 → Job ℕ)) []).threads t) i = 1 →
        exclC ((run 4 (initSys 4 (0 : ℕ) (fun _ => (Job.reader : Job ℕ) : Fin 1 → Job ℕ)) []).threads u) i = 1 →
        t = u) ∧
      (∀ i (t : Fin 1),
        exclC ((run 4 (initSys 4 (0 : ℕ) (fun _ => (Job.reader : Job ℕ) : Fin 1 → Job ℕ)) []).threads t) i = 1 →
        LABEL ≤ (run 4 (initSys 4 (0 : ℕ) (fun _ => (Job.reader : Job ℕ) : Fin 1 → Job ℕ)) []).ring.usage i) ∧
      (∀ i (u t2 : Fin 1) (sp : Bool),
        copyC ((run 4 (initSys 4 (0 : ℕ) (fun _ => (Job.reader : Job ℕ) : Fin 1 → Job ℕ)) []).threads u) i = 1 →
        (stepThread 4 (run 4 (initSys 4 (0 : ℕ) (fun _ => (Job.reader : Job ℕ) : Fin 1 → Job ℕ)) []) t2
            sp).ring.pointers i =
          (run 4 (initSys 4 (0 : ℕ) (fun _ => (Job.reader : Job ℕ) : Fin 1 → Job ℕ)) []).ring.pointers i)) :=
  ⟨⟨by norm_num, by norm_num⟩,
    c2_exclusivity 1 4 (by norm_num) (by norm_num) 0 (fun _ => (Job.reader : Job ℕ) : Fin 1 → Job ℕ) [] _ rfl⟩

/-- C3: in every reachable state the published index is below the ring
size (so slot accesses through it are in bounds); it is 0 after
construction; the candidate computed by the write path is the write
cursor reduced modulo the ring size, a reduction that is unchanged by the
32-bit wrap-around of the cursor; and the write path publishes exactly
its carried in-bounds candidate. -/
theorem c3_published_bounds (n R : ℕ) {V : Type} (hn : n < 1073741824) (hR : 0 < R)
    (hdvd : (R : ℤ) ∣ 4294967296) (p : V) (tasks : Fin n → Job V)
    (sched : List (Fin n × Bool)) (s : Sys n V)
    (hs : s = run R (initSys R p tasks) sched) :
    s.ring.published < R ∧
    (construct R p).published = 0 ∧
    (∀ c : ℤ, idxOfCursor R c = (c % (R : ℤ)).toNat) ∧
    (∀ c : ℤ, idxOfCursor R (wrap32 c) = idxOfCursor R c) ∧
    (∀ (t : Fin n) (l : Bool) (v : V) (sp : Bool), s.threads t = .wstart l v →
      (stepThread R s t sp).threads t = .wpreinc l v (idxOfCursor R s.ring.cursor)) ∧
    (∀ (t : Fin n) (l : Bool) (v : V) (i : ℕ) (sp : Bool),
      s.threads t = .wprepublish l v i →
      i < R ∧ (stepThread R s t sp).ring.published = i) := by
  subst hs
  have hInv := inv_reachable hR hn p tasks sched
  refine ⟨hInv.pub_lt, rfl, ?_, fun c => idxOfCursor_wrap32 hdvd c, ?_, ?_⟩
  · intro c
    exact idxOfCursor_eq (hdvd.trans (by norm_num)) c
  · intro t l v sp ht
    have hstep : stepThread R (run R (initSys R p tasks) sched) t sp =
        { ring := { (run R (initSys R p tasks) sched).ring with
            cursor := wrap32 ((run R (initSys R p tasks) sched).ring.cursor + 1) }
          threads := Function.update (run R (initSys R p tasks) sched).threads t
            (.wpreinc l v (idxOfCursor R (run R (initSys R p tasks) sched).ring.cursor)) } := by
      unfold stepThread; rw [ht]
    rw [hstep]
    exact Function.update_same _ _ _
  · intro t l v i sp ht
    have hlt : i < R := by
      have := hInv.idx_lt t
      rw [ht] at this
      exact this
    have hstep : stepThread R (run R (initSys R p tasks) sched) t sp =
        { ring := { (run R (initSys R p tasks) sched).ring with published := i }
          threads := Function.update (run R (initSys R p tasks) sched).threads t
            (.wprerelease l v i) } := by
      unfold stepThread; rw [ht]
    rw [hstep]
    exact ⟨hlt, rfl⟩

/-- C3 witness: the theorem applied to one reader thread on a ring of
size 4 with the empty schedule. -/
theorem c3_witness :
    (1 < 1073741824 ∧ 0 < 4 ∧ ((4 : ℕ) : ℤ) ∣ 4294967296) ∧
    ((run 4 (initSys 4 (0 : ℕ) (fun _ => (Job.reader : Job ℕ) : Fin 1 → Job ℕ)) []).ring.published < 4 ∧
      (construct 4 (0 : ℕ)).published = 0 ∧
      idxOfCursor 4 (-5) = ((-5 : ℤ) % (4 : ℤ)).toNat ∧
      idxOfCursor 4 (wrap32 (-5)) = idxOfCursor 4 (-5)) := by
  have h := c3_published_bounds 1 4 (by norm_num) (by norm_num) (by norm_num)
    (0 : ℕ) (fun _ => (Job.reader : Job ℕ) : Fin 1 → Job ℕ) [] _ rfl
  exact ⟨⟨by norm_num, by norm_num, by norm_num⟩,
    h.1, h.2.1, h.2.2.1 (-5), h.2.2.2.1 (-5)⟩

/-- C4 counterexample: from the four-writer system, thread 0 reaches the
CAS of line 62 with the usage counter exactly 1, yet the weak
compare-exchange fails (spurious failure, the true bit of the schedule),
and after threads 1-3 advance the shared write cursor the retry draws the
same candidate slot 1 as the failed attempt. -/
theorem c4_cas_counterexample :
    ((run 4 cex4Init (List.take 3 cex4Sched)).threads 0 = .wprecas false 5 1 ∧
      (run 4 cex4Init (List.take 3 cex4Sched)).ring.usage 1 = 1) ∧
    (run 4 cex4Init (List.take 4 cex4Sched)).threads 0 = .wabandon false 5 1 ∧
    (run 4 cex4Init cex4Sched).threads 0 = .wpreinc false 5 1 := by
  decide

/-- C4 (amended): exclusive rights are acquired by a weak CAS of the
candidate slot's usage counter from exactly 1 to SENTINEL + 1; the
acquisition succeeds only when the counter is exactly 1 and the weak CAS
does not fail spuriously, and fails whenever the counter is not exactly 1
or the CAS fails spuriously; on every failed attempt the writer
decrements the counter it had incremented and retries with the next
cursor candidate, which is a different slot whenever no other thread
advanced the cursor in between and the ring size is at least 2. -/
theorem c4_cas_semantics (R : ℕ) (s : Sys n V) (t : Fin n) (sp : Bool) :
    (∀ l v i, s.threads t = .wprecas l v i → s.ring.usage i = 1 → sp = false →
      stepThread R s t sp =
        { ring := casStore s.ring i
          threads := Function.update s.threads t (.wprewrite l v i) }) ∧
    (∀ l v i, s.threads t = .wprecas l v i → ¬(s.ring.usage i = 1 ∧ sp = false) →
      stepThread R s t sp =
        { ring := s.ring
          threads := Function.update s.threads t (.wabandon l v i) }) ∧
    (∀ l v i, s.threads t = .wabandon l v i →
      stepThread R s t sp =
        { ring := usageAdd s.ring i (-1)
          threads := Function.update s.threads t (.wstart l v) }) ∧
    (∀ c : ℤ, 2 ≤ R → (R : ℤ) ∣ 4294967296 →
      idxOfCursor R (wrap32 (c + 1)) ≠ idxOfCursor R c) := by
  refine ⟨?_, ?_, ?_, ?_⟩
  · intro l v i ht h1 h2
    have hstep : stepThread R s t sp =
        if s.ring.usage i = 1 ∧ sp = false then
          { ring := casStore s.ring i
            threads := Function.update s.threads t (.wprewrite l v i) }
        else
          { ring := s.ring
            threads := Function.update s.threads t (.wabandon l v i) } := by
      unfold stepThread; rw [ht]
    rw [hstep, if_pos ⟨h1, h2⟩]
  · intro l v i ht hc
    have hstep : stepThread R s t sp =
        if s.ring.usage i = 1 ∧ sp = false then
          { ring := casStore s.ring i
            threads := Function.update s.threads t (.wprewrite l v i) }
        else
          { ring := s.ring
            threads := Function.update s.threads t (.wabandon l v i) } := by
      unfold stepThread; rw [ht]
    rw [hstep, if_neg hc]
  · intro l v i ht
    unfold stepThread; rw [ht]
  · intro c hR2 hdvd
    rw [idxOfCursor_wrap32 hdvd]
    exact idxOfCursor_succ_ne hR2 hdvd c

/-- C4 witness: the CAS-failure step and the abandon step at concrete
states, and the distinctness of consecutive candidates at ring size 4. -/
theorem c4_witness :
    ((⟨construct 4 (7 : ℕ), fun _ => TState.wprecas false 5 1⟩ : Sys 1 ℕ).threads 0 =
        TState.wprecas false 5 1 ∧
      ¬((⟨construct 4 (7 : ℕ), fun _ => TState.wprecas false 5 1⟩ :
          Sys 1 ℕ).ring.usage 1 = 1 ∧ false = false) ∧
      2 ≤ 4 ∧ ((4 : ℕ) : ℤ) ∣ 4294967296) ∧
    (stepThread 4 (⟨construct 4 (7 : ℕ), fun _ => TState.wprecas false 5 1⟩ :
        Sys 1 ℕ) 0 false =
      { ring := (⟨construct 4 (7 : ℕ), fun _ => TState.wprecas false 5 1⟩ :
          Sys 1 ℕ).ring
        threads := Function.update
          (fun _ => (TState.wprecas false 5 1 : TState ℕ)) 0 (.wabandon false 5 1) } ∧
      idxOfCursor 4 (wrap32 (9 + 1)) ≠ idxOfCursor 4 9) := by
  have h := c4_cas_semantics (n := 1) (V := ℕ) 4
    (⟨construct 4 (7 : ℕ), fun _ => TState.wprecas false 5 1⟩ : Sys 1 ℕ) 0 false
  refine ⟨⟨rfl, by decide, by norm_num, by norm_num⟩, ?_, ?_⟩
  · exact h.2.1 false 5 1 rfl (by decide)
  · exact h.2.2.2 9 (by norm_num) (by norm_num)

/-- C6 counterexample: in schedule A thread 4 selects candidate slot 1 at
a moment when slot 1 is the published slot, and later overwrites slot 1
(published has moved to 2 in between); in schedule B thread 4 gains
exclusivity on slot 1 and overwrites its handle while slot 1 is the
currently published slot. -/
theorem c6_counterexample :
    (cex5Init.ring.pointers 1 = none ∧
      (run 4 cex5Init (List.take 11 cex5SchedA)).ring.published = 1 ∧
      (run 4 cex5Init (List.take 12 cex5SchedA)).threads 4 = .wpreinc false 200 1 ∧
      (run 4 cex5Init (List.take 23 cex5SchedA)).threads 4 = .wprewrite false 200 1 ∧
      (run 4 cex5Init cex5SchedA).ring.pointers 1 = some 200) ∧
    ((run 4 cex5Init (List.take 15 cex5SchedB)).ring.published = 1 ∧
      (run 4 cex5Init (List.take 15 cex5SchedB)).threads 4 = .wprewrite false 200 1 ∧
      (run 4 cex5Init cex5SchedB).ring.pointers 1 = some 200 ∧
      (run 4 cex5Init cex5SchedB).ring.published = 1) := by
  decide

/-- C6 (amended): whenever the candidate index equals the published index
at the check of line 53, the writer abandons: the check step itself leaves
the whole ring unchanged and the following abandon step changes nothing
but that slot's usage counter; a slot's stored handle is only ever written
by a thread inside the exclusive window it acquired through the CAS; and
sequentially (one iteration, counters in range) an iteration whose
candidate is published leaves everything except the advanced write cursor
unchanged.  (The slot written after acquiring the window may coincide
with the slot published at selection time, or with the currently
published slot, when other writers move the published index
concurrently.) -/
theorem c6_frame (R : ℕ) (s : Sys n V) (t : Fin n) (sp : Bool) :
    (∀ l v i, s.threads t = .wprecheck l v i → s.ring.published = i →
      stepThread R s t sp =
        { ring := s.ring
          threads := Function.update s.threads t (.wabandon l v i) }) ∧
    (∀ l v i, s.threads t = .wabandon l v i →
      (stepThread R s t sp).ring.pointers = s.ring.pointers ∧
      (stepThread R s t sp).ring.published = s.ring.published ∧
      (stepThread R s t sp).threads t = .wstart l v) ∧
    (∀ i, (stepThread R s t sp).ring.pointers i ≠ s.ring.pointers i →
      ∃ l v, s.threads t = .wprewrite l v i) ∧
    (∀ (r : RingState V) (v : V), idxOfCursor R r.cursor = r.published →
      (∀ j, -2147483648 ≤ r.usage j ∧ r.usage j < 2147483647) →
      assignIter R r v = ({ r with cursor := wrap32 (r.cursor + 1) }, false)) := by
  refine ⟨?_, ?_, ?_, ?_⟩
  · intro l v i ht hpub
    have hstep : stepThread R s t sp =
        { ring := s.ring
          threads := Function.update s.threads t
            (if s.ring.published = i then .wabandon l v i else .wprecas l v i) } := by
      unfold stepThread; rw [ht]
    rw [hstep, if_pos hpub]
  · intro l v i ht
    have hstep : stepThread R s t sp =
        { ring := usageAdd s.ring i (-1)
          threads := Function.update s.threads t (.wstart l v) } := by
      unfold stepThread; rw [ht]
    rw [hstep]
    exact ⟨rfl, rfl, Function.update_same _ _ _⟩
  · intro i hch
    by_contra hno
    push_neg at hno
    exact hch (step_pointers_eq i hno)
  · intro r v hpub hrange
    exact assignIter_abandon r v hpub (hrange _).1 (lt_trans (hrange _).2 (by norm_num))

/-- C6 witness: the abandon-on-published-check step at a concrete state
and the sequential abandon iteration on a fresh ring whose candidate is
the published slot 0. -/
theorem c6_witness :
    ((⟨construct 4 (7 : ℕ), fun _ => TState.wprecheck false 5 0⟩ : Sys 1 ℕ).threads 0 =
        TState.wprecheck false 5 0 ∧
      (⟨construct 4 (7 : ℕ), fun _ => TState.wprecheck false 5 0⟩ :
        Sys 1 ℕ).ring.published = 0 ∧
      idxOfCursor 4 (⟨fun _ => none, fun _ => 0, 1, 5⟩ : RingState ℕ).cursor =
        (⟨fun _ => none, fun _ => 0, 1, 5⟩ : RingState ℕ).published ∧
      (∀ j, -2147483648 ≤ (⟨fun _ => none, fun _ => 0, 1, 5⟩ : RingState ℕ).usage j ∧
        (⟨fun _ => none, fun _ => 0, 1, 5⟩ : RingState ℕ).usage j < 2147483647)) ∧
    (stepThread 4 (⟨construct 4 (7 : ℕ), fun _ => TState.wprecheck false 5 0⟩ :
        Sys 1 ℕ) 0 false =
      { ring := (⟨construct 4 (7 : ℕ), fun _ => TState.wprecheck false 5 0⟩ :
          Sys 1 ℕ).ring
        threads := Function.update
          (fun _ => (TState.wprecheck false 5 0 : TState ℕ)) 0 (.wabandon false 5 0) } ∧
      assignIter 4 (⟨fun _ => none, fun _ => 0, 1, 5⟩ : RingState ℕ) 3 =
        ({ (⟨fun _ => none, fun _ => 0, 1, 5⟩ : RingState ℕ) with
            cursor := wrap32 (5 + 1) }, false)) := by
  have h := c6_frame (n := 1) (V := ℕ) 4
    (⟨construct 4 (7 : ℕ), fun _ => TState.wprecheck false 5 0⟩ : Sys 1 ℕ) 0 false
  refine ⟨⟨rfl, rfl, by decide, fun j => by norm_num⟩, ?_, ?_⟩
  · exact h.1 false 5 0 rfl rfl
  · exact h.2.2.2 (⟨fun _ => none, fun _ => 0, 1, 5⟩ : RingState ℕ) 3 (by decide)
      (fun j => by norm_num)

/-- C8 counterexample: the iteration count of an assign call is
unbounded in two refuted regimes.  Solo: on a fresh ring of size 4 with
no concurrent operation, adversarial spurious failures of the weak CAS of
line 62 make the single assign start any number k of loop iterations
without returning.  Concurrent: with two competing writers on a ring of
size 4 (writer count strictly below the ring size, and every CAS resolved
without spurious failure), for every bound some schedule makes the single
assign call of thread 0 start more iterations than the bound without
returning. -/
theorem c8_counterexample :
    (∀ k : ℕ,
      assignLoopW 4 (5 : ℕ) (List.replicate k true) (construct 4 0) = none) ∧
    ¬ ∃ B : ℕ, ∀ sched : List (Fin 2 × Bool),
      countFetches 4 cex2Init sched 0 ≤ B ∨
        (run 4 cex2Init sched).threads 0 = .wdone := by
  constructor
  · intro k
    exact assignLoopW_spurious 5 k (construct 4 0)
  · rintro ⟨B, hB⟩
    obtain ⟨sched, h1, h2⟩ := unbounded_retries B
    rcases hB sched with h | h
    · omega
    · exact h2 h

/-- C8 (amended): a single assign with no concurrent operations
terminates within at most two loop iterations provided its weak CAS does
not fail spuriously (two consecutive cursor candidates cannot both equal
the published index when the ring size is at least 2); but the CAS of
line 62 is a weak one, and under adversarial spurious failures even a
solo assign starts any number of iterations without returning; and with
concurrently competing writers the iteration count is unbounded even
without spurious failures, already with two writers on a ring of size
4. -/
theorem c8_termination (R : ℕ) {V : Type} (v : V) (r : RingState V)
    (hR2 : 2 ≤ R) (hdvd : (R : ℤ) ∣ 4294967296) (hu : ∀ j, r.usage j = 0) :
    (∃ r2, assignLoopW R v [false, false] r = some r2) ∧
    (∀ k : ℕ, assignLoopW R v (List.replicate k true) r = none) ∧
    (∀ B : ℕ, ∃ sched : List (Fin 2 × Bool),
      B < countFetches 4 cex2Init sched 0 ∧
        (run 4 cex2Init sched).threads 0 ≠ .wdone) := by
  obtain ⟨r2, h, _, _, _⟩ := assignLoop_two v r hR2 hdvd hu
  refine ⟨⟨r2, ?_⟩, fun k => assignLoopW_spurious v k r, unbounded_retries⟩
  rw [show ([false, false] : List Bool) = List.replicate 2 false from rfl,
    assignLoopW_false, h]

/-- C8 witness: the theorem applied to a fresh ring of size 4. -/
theorem c8_witness :
    (2 ≤ 4 ∧ ((4 : ℕ) : ℤ) ∣ 4294967296 ∧ ∀ j, (construct 4 (0 : ℕ)).usage j = 0) ∧
    ((∃ r2, assignLoopW 4 9 [false, false] (construct 4 (0 : ℕ)) = some r2) ∧
      (∀ k : ℕ,
        assignLoopW 4 9 (List.replicate k true) (construct 4 (0 : ℕ)) = none) ∧
      (∀ B : ℕ, ∃ sched : List (Fin 2 × Bool),
        B < countFetches 4 cex2Init sched 0 ∧
          (run 4 cex2Init sched).threads 0 ≠ .wdone)) :=
  ⟨⟨by norm_num, by norm_num, fun _ => rfl⟩,
    c8_termination 4 9 (construct 4 0) (by norm_num) (by norm_num) (fun _ => rfl)⟩

end ASPR
